import Mathlib

/-!
# Session bootstrap layer: `src/scripts/cookies.js`

A shallow embedding of the three functions of `cookies.js` (`setCookie`,
`getCookie`, `startSession`) together with the parts of the host they
touch (string primitives, `Date`, `document.cookie`, the bridge promises).

JavaScript strings are embedded as `String`; the character-level work is
done on `String.data` (a `List Char`), one list element per character.
-/

namespace Cookies

/-! ## String primitives of the host -/

/-- The receiver of `split(';')` cut at every `;`, as a first piece and
the remaining pieces; the pieces never contain `;`. -/
def splitSemiAux : List Char → List Char × List (List Char)
  | [] => ([], [])
  | c :: cs =>
    if c = ';' then ([], (splitSemiAux cs).1 :: (splitSemiAux cs).2)
    else (c :: (splitSemiAux cs).1, (splitSemiAux cs).2)

/-- JavaScript `s.split(';')`: always at least one piece (`"".split(';')`
is `[""]`). -/
def splitSemi (s : List Char) : List (List Char) :=
  (splitSemiAux s).1 :: (splitSemiAux s).2

/-- JavaScript `s.substring(start, stop)` for non-negative arguments: the
arguments are swapped when out of order and clamped to the length. -/
def substring (s : List Char) (start stop : Nat) : List Char :=
  (s.take (max start stop)).drop (min start stop)

/-- JavaScript `hay.indexOf(needle)` scanning from position `i` of the
original string: the first position where `needle` occurs, or `-1`. -/
def indexOfFrom (needle : List Char) : List Char → Nat → Int
  | [], i => if needle.isPrefixOf [] then (i : Int) else -1
  | c :: cs, i =>
    if needle.isPrefixOf (c :: cs) then (i : Int) else indexOfFrom needle cs (i + 1)

/-- JavaScript `hay.indexOf(needle)`. -/
def indexOf (hay needle : List Char) : Int :=
  indexOfFrom needle hay 0

/-! ## `getCookie` -/

/-- The inner loop of `getCookie`:
`while (cookie.charAt(0) == ' ') cookie = cookie.substring(1);` -/
def trimLeadingSpaces : List Char → List Char
  | [] => []
  | c :: cs => if c = ' ' then trimLeadingSpaces cs else c :: cs

/-- The `for` loop of `getCookie` over the pieces of the jar string, with
its early `return`; falling off the end is the final `return ""`. -/
def scanCookies (name : List Char) : List (List Char) → List Char
  | [] => []
  | cookie :: rest =>
    if indexOf (trimLeadingSpaces cookie) name = 0 then
      substring (trimLeadingSpaces cookie) name.length (trimLeadingSpaces cookie).length
    else scanCookies name rest

/-- The function `getCookie(cookieName)`, with the string read from
`document.cookie` as an explicit argument. -/
def getCookie (cookieName documentCookie : String) : String :=
  ⟨scanCookies (cookieName.data ++ ['=']) (splitSemi documentCookie.data)⟩

/-! ## `Date` of the host -/

/-- ECMAScript `TimeClip`: a time value beyond 8.64e15 ms is not a time
(`NaN`, here `none`). Time values are milliseconds since the epoch; the
clock never reads before the epoch, so they are naturals. -/
def timeClip (t : Nat) : Option Nat :=
  if t ≤ 8640000000000000 then some t else none

/-- The decimal digit `d` as a character. -/
def digitChar (d : Nat) : Char :=
  Char.ofNat (48 + d % 10)

/-- Two decimal digits, as for the day of the month and the clock fields. -/
def twoDigits (n : Nat) : List Char :=
  [digitChar (n / 10), digitChar n]

/-- The year in decimal, padded on the left to four digits. -/
def yearDigits (y : Nat) : List Char :=
  if y < 10000 then [digitChar (y / 1000), digitChar (y / 100), digitChar (y / 10), digitChar y]
  else Nat.toDigits 10 y

/-- Day of the week of day number `day` (days since the epoch), `0` for
Sunday; the epoch was a Thursday. -/
def weekDay (day : Nat) : Nat :=
  (day + 4) % 7

/-- Gregorian year, month (1 to 12) and day of the month of day number
`day`, days counted from 1 January 1970. -/
def civilFromDays (day : Nat) : Nat × Nat × Nat :=
  let z := day + 719468
  let era := z / 146097
  let doe := z % 146097
  let yoe := (doe - doe / 1460 + doe / 36524 - doe / 146096) / 365
  let doy := doe - (365 * yoe + yoe / 4 - yoe / 100)
  let mp := (5 * doy + 2) / 153
  let d := doy - (153 * mp + 2) / 5 + 1
  let m := if mp < 10 then mp + 3 else mp - 9
  let y := yoe + era * 400
  (if m ≤ 2 then y + 1 else y, m, d)

def dayNames : List String :=
  ["Sun", "Mon", "Tue", "Wed", "Thu", "Fri", "Sat"]

def monthNames : List String :=
  ["Jan", "Feb", "Mar", "Apr", "May", "Jun", "Jul", "Aug", "Sep", "Oct", "Nov", "Dec"]

/-- The RFC 1123 rendering `Www, DD Mmm YYYY HH:MM:SS GMT` of the time
value `t`. -/
def rfc1123 (t : Nat) : List Char :=
  let secs := t / 1000
  let day := secs / 86400
  let sod := secs % 86400
  let ymd := civilFromDays day
  (dayNames.getD (weekDay day) "").data ++ [',', ' '] ++ twoDigits ymd.2.2 ++ [' '] ++
    (monthNames.getD (ymd.2.1 - 1) "").data ++ [' '] ++ yearDigits ymd.1 ++ [' '] ++
    twoDigits (sod / 3600) ++ [':'] ++ twoDigits (sod % 3600 / 60) ++ [':'] ++
    twoDigits (sod % 60) ++ " GMT".data

/-- JavaScript `d.toUTCString()` for the time value of `d`. -/
def toUTCString : Option Nat → List Char
  | some t => rfc1123 t
  | none => "Invalid Date".data

/-! ## `startSession` -/

/-- How a promise returned by the bridge settles; `pending` is a promise
that never settles. Rejection reasons are embedded as strings. -/
inductive Settled (α : Type) where
  | resolved (v : α)
  | rejected (e : String)
  | pending
  deriving DecidableEq, Repr

/-- The host bridge as one run sees it: how `invoke("get_uuid", {})`
settles and, for each identifier, how
`invoke("start_session", { sessionId })` settles. -/
structure Bridge where
  get_uuid : Settled String
  start_session : String → Settled Unit

/-- What a run does to the outside, in order of occurrence. -/
inductive Effect where
  | consoleLog (msg : String)
  | consoleError (e : String)
  | invoke (cmd : String) (args : List (String × String))
  | cookieWrite (assigned : String)
  | unhandledRejection (e : String)
  deriving DecidableEq, Repr

/-- How the synchronous call ends: it returns, or an exception escapes it
(the only one these functions can raise is the `ReferenceError` of an
identifier that is bound nowhere). -/
inductive Completion where
  | normal
  | referenceError (identifier : String)
  deriving DecidableEq, Repr

/-- One run of a function of the script: its effects (those of the promise
callbacks it registered included) and how the call itself completed. -/
structure Run where
  effects : List Effect
  completion : Completion
  deriving DecidableEq, Repr

/-- The `.catch(e => console.error(e))` attached to the promise of
`invoke("start_session", ...)`. -/
def afterStartSession : Settled Unit → List Effect
  | .resolved _ => []
  | .rejected e => [.consoleError e]
  | .pending => []

/-- The `.then(uuid => ...)` attached to the promise of
`invoke("get_uuid", {})`; no rejection handler is attached, so a rejection
of `get_uuid` surfaces as an unhandled rejection. -/
def afterGetUuid (bridge : Bridge) : List Effect :=
  match bridge.get_uuid with
  | .resolved uuid =>
    .invoke "start_session" [("sessionId", uuid)] ::
      afterStartSession (bridge.start_session uuid)
  | .rejected e => [.unhandledRejection e]
  | .pending => []

/-- The body of `startSession`, given what the identifier `get_cookie` of
its first statement is bound to (`none`: bound nowhere, so evaluating the
call throws before anything else happens). -/
def startSessionWith (get_cookie : Option (String → String → String))
    (documentCookie : String) (bridge : Bridge) : Run :=
  match get_cookie with
  | none => ⟨[], .referenceError "get_cookie"⟩
  | some callee =>
    let session_id := callee "RUST_SESSION_ID" documentCookie
    if session_id = "" then
      ⟨.consoleLog "TEST" :: .invoke "get_uuid" [] :: afterGetUuid bridge, .normal⟩
    else
      ⟨[.consoleLog "TEST"], .normal⟩

/-- The identifiers the two scripts bind at top level (`invoke` by the
destructuring `const`, the others by function declarations). -/
def topLevelIdentifiers : List String :=
  ["invoke", "setCookie", "getCookie", "startSession", "getCap"]

/-- Resolution of an identifier that is called with a cookie name: of the
top-level bindings, `getCookie` is the cookie reader; an identifier that is
not bound at all resolves to nothing. -/
def lookupReader (identifier : String) : Option (String → String → String) :=
  if identifier ∈ topLevelIdentifiers ∧ identifier = "getCookie" then some getCookie
  else none

/-- The function `startSession()` as written: its first statement calls
`get_cookie("RUST_SESSION_ID")`. -/
def startSession (documentCookie : String) (bridge : Bridge) : Run :=
  startSessionWith (lookupReader "get_cookie") documentCookie bridge

/-! ## `setCookie` -/

/-- The string that `setCookie(cookieName, value, days)` assigns to
`document.cookie` when the clock reads `now`. -/
def setCookieAssigned (cookieName value : String) (days now : Nat) : String :=
  let d := timeClip (now + days * 24 * 60 * 60 * 1000)
  let expires := "expires=" ++ String.mk (toUTCString d)
  cookieName ++ "=" ++ value ++ ";" ++ expires ++ ";path=/"

/-- The function `setCookie(cookieName, value, days)`, run when the clock
reads `now`: one assignment to `document.cookie`. -/
def setCookie (cookieName value : String) (days now : Nat) : Run :=
  ⟨[.cookieWrite (setCookieAssigned cookieName value days now)], .normal⟩

/-! ## `document.cookie` of the host

The jar behind `document.cookie` of a document that has one (an HTTP or
HTTPS document), after the user-agent algorithm of RFC 6265 (sections 5.2 to
5.4) with the refinements user agents apply to it: a name-value pair is cut
at a line terminator, a name or value that holds a control character is
refused, as is a pair of more than 4096 bytes or a reserved name prefix
without its attribute. The jar holds the cookies whose domain and path match
the document; a cookie is identified by name, domain and path. Of the
attributes `Expires`, `Path`, `Secure` and `HttpOnly` are interpreted;
`setCookie` emits none but `expires` and `path`. -/

/-- One cookie of the jar: `hostOnly` tells a cookie of the document's own
host from one set for a whole domain, `httpOnly` a cookie hidden from
scripts; `expiry` is a time value, `none` for a cookie without expiry
date. -/
structure Entry where
  name : List Char
  value : List Char
  domain : List Char
  hostOnly : Bool
  path : List Char
  httpOnly : Bool
  expiry : Option Nat
  deriving DecidableEq, Repr

/-- The jar of a document: the host of the document, the default path of
its cookies, and the cookies that match it, earliest created first. -/
structure Jar where
  host : List Char
  defaultPath : List Char
  entries : List Entry
  deriving DecidableEq, Repr

/-- The whitespace of RFC 6265: space and horizontal tab. -/
def isWsp (c : Char) : Bool :=
  c = ' ' || c = '\t'

/-- The characters that end a cookie line: line feed, carriage return and
the null character. -/
def isTerminator (c : Char) : Bool :=
  c = '\n' || c = '\r' || c = Char.ofNat 0

/-- The control characters: the code points below 32, and 127. -/
def isControl (c : Char) : Bool :=
  c.toNat < 32 || c.toNat = 127

/-- White space in the widest sense a host trims: the white space and line
terminators of ECMAScript. -/
def isWhite (c : Char) : Bool :=
  (9 ≤ c.toNat && c.toNat ≤ 13) || c.toNat = 32 || c.toNat = 160 || c.toNat = 5760 ||
    (8192 ≤ c.toNat && c.toNat ≤ 8202) || c.toNat = 8232 || c.toNat = 8233 ||
    c.toNat = 8239 || c.toNat = 8287 || c.toNat = 12288 || c.toNat = 65279

/-- Whether a text neither begins nor ends with white space. -/
def edgeClean (s : List Char) : Bool :=
  match s.head?, s.getLast? with
  | some a, some z => !isWhite a && !isWhite z
  | _, _ => true

/-- Removal of leading and trailing whitespace. -/
def trimWsp (s : List Char) : List Char :=
  ((s.dropWhile isWsp).reverse.dropWhile isWsp).reverse

/-- The part of `s` before its first `=` (all of `s` if there is none). -/
def beforeEq (s : List Char) : List Char :=
  s.takeWhile (fun c => c != '=')

/-- The part of `s` after its first `=`. -/
def afterEq (s : List Char) : List Char :=
  (s.dropWhile (fun c => c != '=')).drop 1

/-- The length of a text in bytes of UTF-8. -/
def utf8Length (s : List Char) : Nat :=
  (s.map Char.utf8Size).sum

/-- The name prefixes reserved to cookies with particular attributes,
compared without regard to letter case. -/
def reservedPrefixes : List (List Char) :=
  ["__secure-".data, "__host-".data, "__http-".data]

def hasReservedPrefix (s : List Char) : Bool :=
  reservedPrefixes.any (fun p => p.isPrefixOf (s.map Char.toLower))

def digitVal (c : Char) : Option Nat :=
  if '0' ≤ c ∧ c ≤ '9' then some (c.toNat - 48) else none

/-- A non-empty run of decimal digits as a number. -/
def parseDigits (s : List Char) : Option Nat :=
  if s = [] then none
  else s.foldl (fun acc c => acc.bind (fun a => (digitVal c).map (fun d => 10 * a + d))) (some 0)

/-- Day number (days since 1 January 1970) of a Gregorian date; dates
before the epoch count as day 0. -/
def daysFromCivil (y m d : Nat) : Nat :=
  let y1 := if m ≤ 2 then y - 1 else y
  let era := y1 / 400
  let yoe := y1 % 400
  let mp := if 2 < m then m - 3 else m + 9
  let doy := (153 * mp + 2) / 5 + d - 1
  let doe := yoe * 365 + yoe / 4 - yoe / 100 + doy
  era * 146097 + doe - 719468

def slice (s : List Char) (i j : Nat) : List Char :=
  (s.drop i).take (j - i)

/-- The time value of a date written `Www, DD Mmm YYYY HH:MM:SS GMT`, the
shape `toUTCString` produces for four-digit years. Of the texts `setCookie`
can write these are the ones the cookie date parser of RFC 6265 accepts: it
finds no year in a rendering with a longer year nor in `Invalid Date`. Other
texts are not interpreted (`none`). -/
def parseDate (s : List Char) : Option Nat :=
  if s.length = 29 ∧ slice s 3 5 = [',', ' '] ∧ slice s 7 8 = [' '] ∧ slice s 11 12 = [' '] ∧
      slice s 16 17 = [' '] ∧ slice s 19 20 = [':'] ∧ slice s 22 23 = [':'] ∧
      slice s 25 29 = " GMT".data then
    match parseDigits (slice s 5 7), monthNames.indexOf? (String.mk (slice s 8 11)),
        parseDigits (slice s 12 16), parseDigits (slice s 17 19), parseDigits (slice s 20 22),
        parseDigits (slice s 23 25) with
    | some d, some m, some y, some hh, some mm, some ss =>
      if 1 ≤ d ∧ d ≤ 31 ∧ 1601 ≤ y ∧ hh ≤ 23 ∧ mm ≤ 59 ∧ ss ≤ 59 then
        some ((daysFromCivil y (m + 1) d * 86400 + hh * 3600 + mm * 60 + ss) * 1000)
      else none
    | _, _, _, _, _, _ => none
  else none

/-- The name of an attribute, trimmed and in lower case. -/
def attributeName (a : List Char) : List Char :=
  (trimWsp (beforeEq a)).map Char.toLower

/-- The value of an attribute, trimmed. -/
def attributeValue (a : List Char) : List Char :=
  trimWsp (afterEq a)

def hasAttribute (name : List Char) (attrs : List (List Char)) : Bool :=
  attrs.any (fun a => attributeName a = name)

/-- The expiry time given by a list of attributes: that of the last
`Expires` attribute whose date parses; an attribute whose date does not
parse is ignored. -/
def expiryOfAttributes (attrs : List (List Char)) : Option Nat :=
  attrs.foldl
    (fun acc a =>
      if (trimWsp (beforeEq a)).map Char.toLower = "expires".data then
        match parseDate (trimWsp (afterEq a)) with
        | some e => some e
        | none => acc
      else acc)
    none

/-- The path given by a list of attributes: the value of the last `Path`
attribute if it begins with `/`; `none` stands for the default path. -/
def pathOfAttributes (attrs : List (List Char)) : Option (List Char) :=
  attrs.foldl
    (fun acc a =>
      if attributeName a = "path".data then
        if (attributeValue a).head? = some '/' then some (attributeValue a) else none
      else acc)
    none

/-- The name and the value a string assigned to `document.cookie` gives:
the text before the first `;`, cut at the first line terminator, is split
at its first `=` and both parts are trimmed; without `=` the name is empty.
No cookie results when a control character is left in either part, when the
two exceed 4096 bytes, or when both are empty. -/
def nameValue (s : List Char) : Option (List Char × List Char) :=
  let pair := ((splitSemiAux s).1).takeWhile (fun c => !isTerminator c)
  let name := if '=' ∈ pair then trimWsp (beforeEq pair) else []
  let value := if '=' ∈ pair then trimWsp (afterEq pair) else trimWsp pair
  if name.any isControl || value.any isControl then none
  else if 4096 < utf8Length name + utf8Length value then none
  else if name = [] ∧ value = [] then none
  else some (name, value)

/-- What a script's assignment contributes to a cookie. -/
structure Parsed where
  name : List Char
  value : List Char
  expiry : Option Nat
  path : Option (List Char)
  deriving DecidableEq, Repr

/-- Whether a reserved prefix bars the cookie: `__Http-` names cannot be set
by a script at all, `__Secure-` and `__Host-` names need the `Secure`
attribute; for a cookie without name the value is looked at. -/
def barredByPrefix (name value : List Char) (attrs : List (List Char)) : Bool :=
  let shown := if name = [] then value else name
  "__http-".data.isPrefixOf (shown.map Char.toLower) ||
    "__host-http-".data.isPrefixOf (shown.map Char.toLower) ||
    (hasReservedPrefix shown && !hasAttribute "secure".data attrs)

/-- The cookie a string assigned to `document.cookie` describes, if any: a
script can neither set an `HttpOnly` cookie nor one barred by its prefix. -/
def parseSetCookie (s : List Char) : Option Parsed :=
  match nameValue s with
  | none => none
  | some (name, value) =>
    if hasAttribute "httponly".data (splitSemiAux s).2 then none
    else if barredByPrefix name value (splitSemiAux s).2 then none
    else some ⟨name, value, expiryOfAttributes (splitSemiAux s).2,
      pathOfAttributes (splitSemiAux s).2⟩

/-- What identifies a cookie in the jar: name, domain and path. -/
def Entry.key (e : Entry) : List Char × List Char × List Char :=
  (e.name, e.domain, e.path)

/-- Storing a cookie set by a script: it takes the place of the cookie of
the same key, a new one goes to the end; a script cannot replace an
`HttpOnly` cookie (`none`). -/
def store (e : Entry) : List Entry → Option (List Entry)
  | [] => some [e]
  | x :: xs =>
    if x.key = e.key then (if x.httpOnly then none else some (e :: xs))
    else (store e xs).map (fun r => x :: r)

/-- The assignment `document.cookie = assigned`: the cookie described is a
cookie of the document's host alone, visible to scripts, on the path given
or else the default path. -/
def Jar.assign (jar : Jar) (assigned : String) : Jar :=
  match parseSetCookie assigned.data with
  | none => jar
  | some p =>
    match store ⟨p.name, p.value, jar.host, true, p.path.getD jar.defaultPath, false, p.expiry⟩
        jar.entries with
    | none => jar
    | some es => ⟨jar.host, jar.defaultPath, es⟩

/-- Whether the jar still holds the entry when the clock reads `now`: an
entry whose expiry time is not later than `now` has expired. -/
def Entry.live (now : Nat) (e : Entry) : Bool :=
  match e.expiry with
  | none => true
  | some t => now < t

/-- Whether a script reading the jar at `now` is shown the entry. -/
def Entry.visible (now : Nat) (e : Entry) : Bool :=
  e.live now && !e.httpOnly

/-- The text of an entry as read: `name=value`, or the value alone for a
cookie without name. -/
def Entry.text (e : Entry) : List Char :=
  if e.name = [] then e.value else e.name ++ '=' :: e.value

/-- The order of the cookies as read: longer paths first, and among equal
path lengths the earlier created first. -/
def listedBefore (a b : Entry) : Prop :=
  b.path.length ≤ a.path.length

instance : DecidableRel listedBefore :=
  fun a b => inferInstanceAs (Decidable (b.path.length ≤ a.path.length))

/-- The string read from `document.cookie` when the clock reads `now`: the
texts of the visible entries in their order, joined by `; `. -/
def Jar.read (now : Nat) (jar : Jar) : String :=
  ⟨"; ".data.intercalate
    (((jar.entries.filter (Entry.visible now)).insertionSort listedBefore).map Entry.text)⟩

/-- The jar after the effects of a run: only assignments to
`document.cookie` touch it. -/
def Jar.after (jar : Jar) : List Effect → Jar
  | [] => jar
  | .cookieWrite assigned :: rest => (jar.assign assigned).after rest
  | _ :: rest => jar.after rest

/-- The jar of a document at the root of `localhost`, without cookies. -/
def Jar.fresh : Jar :=
  ⟨"localhost".data, "/".data, []⟩

/-- What the jar can hold: names free of `;` and `=`, values free of `;`,
and a text that does not begin with whitespace. -/
def Entry.WellFormed (e : Entry) : Prop :=
  ';' ∉ e.name ∧ '=' ∉ e.name ∧ ';' ∉ e.value ∧ (∀ c, e.text.head? = some c → isWsp c = false)

/-- A jar is well formed when its entries are and no two share a key. -/
def Jar.WellFormed (jar : Jar) : Prop :=
  (∀ e ∈ jar.entries, e.WellFormed) ∧ (jar.entries.map Entry.key).Nodup

/-- Whether the jar holds no cookie that reads as `n=...` other than,
possibly, the script-visible cookie `n` of the document's own host at path
`/`, the one `setCookie` writes. -/
def Jar.freeFor (n : List Char) (jar : Jar) : Prop :=
  ∀ e ∈ jar.entries, (n ++ ['=']) <+: e.text →
    e.name = n ∧ e.domain = jar.host ∧ e.hostOnly = true ∧ e.path = "/".data ∧ e.httpOnly = false

/-- The expiry time the jar reads off the attributes `setCookie` writes
when called with `days` at clock reading `now`. -/
def writtenExpiry (days now : Nat) : Option Nat :=
  expiryOfAttributes (splitSemi ("expires=".data ++
    toUTCString (timeClip (now + days * 24 * 60 * 60 * 1000)) ++ ";path=/".data))


/-! ## Facts about the string primitives -/

theorem splitSemi_eq_splitOn (s : List Char) : splitSemi s = s.splitOn ';' := by
  induction s with
  | nil => rfl
  | cons c cs ih =>
    unfold splitSemi at ih ⊢
    rw [List.splitOn, List.splitOnP_cons, ← List.splitOn, ← ih]
    by_cases h : c = ';' <;> simp [splitSemiAux, h, List.modifyHead]

theorem indexOfFrom_ne_zero (needle hay : List Char) (i : Nat) (hi : 0 < i) :
    indexOfFrom needle hay i ≠ 0 := by
  induction hay generalizing i with
  | nil =>
    unfold indexOfFrom
    split <;> omega
  | cons c cs ih =>
    unfold indexOfFrom
    split
    · omega
    · exact ih (i + 1) (by omega)

/-- The test `cookie.indexOf(name) == 0` holds exactly when `cookie`
starts with `name`. -/
theorem indexOf_eq_zero_iff (hay needle : List Char) :
    indexOf hay needle = 0 ↔ needle <+: hay := by
  unfold indexOf
  cases hay with
  | nil =>
    unfold indexOfFrom
    by_cases h : needle.isPrefixOf [] = true
    · simp only [h, if_true]
      exact ⟨fun _ => List.isPrefixOf_iff_prefix.mp h, fun _ => rfl⟩
    · simp only [h]
      constructor
      · intro h0
        simp at h0
      · intro hp
        exact absurd (List.isPrefixOf_iff_prefix.mpr hp) h
  | cons c cs =>
    unfold indexOfFrom
    by_cases h : needle.isPrefixOf (c :: cs) = true
    · simp only [h, if_true]
      exact ⟨fun _ => List.isPrefixOf_iff_prefix.mp h, fun _ => rfl⟩
    · simp only [h]
      constructor
      · intro h0
        exact absurd h0 (indexOfFrom_ne_zero needle cs (0 + 1) (by omega))
      · intro hp
        exact absurd (List.isPrefixOf_iff_prefix.mpr hp) h

theorem substring_after_prefix (name rest : List Char) :
    substring (name ++ rest) name.length (name ++ rest).length = rest := by
  unfold substring
  have h1 : max name.length (name ++ rest).length = (name ++ rest).length := by
    simp [List.length_append]
  have h2 : min name.length (name ++ rest).length = name.length := by
    simp [List.length_append]
  rw [h1, h2, List.take_length, List.drop_left]

theorem trimLeadingSpaces_replicate_append (k : Nat) (s : List Char) :
    trimLeadingSpaces (List.replicate k ' ' ++ s) = trimLeadingSpaces s := by
  induction k with
  | zero => rfl
  | succ k ih =>
    rw [List.replicate_succ, List.cons_append]
    simp only [trimLeadingSpaces, if_true]
    exact ih

/-! ## Facts about the scan of `getCookie` -/

theorem scanCookies_no_match (name : List Char) (segs : List (List Char))
    (h : ∀ seg ∈ segs, ¬ name <+: trimLeadingSpaces seg) :
    scanCookies name segs = [] := by
  induction segs with
  | nil => rfl
  | cons seg rest ih =>
    have hseg : ¬ indexOf (trimLeadingSpaces seg) name = 0 := by
      rw [indexOf_eq_zero_iff]
      exact h seg (List.mem_cons_self seg rest)
    simp only [scanCookies, hseg, if_false]
    exact ih (fun s hs => h s (List.mem_cons_of_mem seg hs))

theorem scanCookies_skip (name : List Char) (pre segs : List (List Char))
    (h : ∀ seg ∈ pre, ¬ name <+: trimLeadingSpaces seg) :
    scanCookies name (pre ++ segs) = scanCookies name segs := by
  induction pre with
  | nil => rfl
  | cons seg rest ih =>
    have hseg : ¬ indexOf (trimLeadingSpaces seg) name = 0 := by
      rw [indexOf_eq_zero_iff]
      exact h seg (List.mem_cons_self seg rest)
    simp only [List.cons_append, scanCookies, hseg, if_false]
    exact ih (fun s hs => h s (List.mem_cons_of_mem seg hs))

theorem scanCookies_hit (name value : List Char) (seg : List Char)
    (post : List (List Char)) (h : trimLeadingSpaces seg = name ++ value) :
    scanCookies name (seg :: post) = value := by
  have hseg : indexOf (trimLeadingSpaces seg) name = 0 := by
    rw [indexOf_eq_zero_iff, h]
    exact List.prefix_append name value
  simp only [scanCookies, hseg, if_true]
  rw [h]
  exact substring_after_prefix name value

theorem scanCookies_leftmost (name value : List Char) (pre : List (List Char))
    (seg : List Char) (post : List (List Char))
    (hpre : ∀ s ∈ pre, ¬ name <+: trimLeadingSpaces s)
    (hseg : trimLeadingSpaces seg = name ++ value) :
    scanCookies name (pre ++ seg :: post) = value := by
  rw [scanCookies_skip name pre (seg :: post) hpre]
  exact scanCookies_hit name value seg post hseg

/-- The scan only looks at the pieces through `trimLeadingSpaces`. -/
theorem scanCookies_congr (name : List Char) (xs ys : List (List Char))
    (h : List.Forall₂ (fun a b => trimLeadingSpaces a = trimLeadingSpaces b) xs ys) :
    scanCookies name xs = scanCookies name ys := by
  induction h with
  | nil => rfl
  | cons hab _ ih =>
    simp only [scanCookies, hab, ih]

theorem splitSemiAux_append_semi (a b : List Char) :
    splitSemiAux (a ++ ';' :: b) =
      ((splitSemiAux a).1, (splitSemiAux a).2 ++ splitSemi b) := by
  induction a with
  | nil => simp [splitSemiAux, splitSemi]
  | cons c cs ih =>
    by_cases h : c = ';' <;> simp [splitSemiAux, h, ih]

theorem splitSemi_append_semi (a b : List Char) :
    splitSemi (a ++ ';' :: b) = splitSemi a ++ splitSemi b := by
  unfold splitSemi
  rw [splitSemiAux_append_semi]
  rfl

theorem splitSemiAux_spaces_append (k : Nat) (s : List Char) :
    splitSemiAux (List.replicate k ' ' ++ s) =
      (List.replicate k ' ' ++ (splitSemiAux s).1, (splitSemiAux s).2) := by
  induction k with
  | zero => rfl
  | succ k ih =>
    rw [List.replicate_succ, List.cons_append]
    have h : ¬ (' ' : Char) = ';' := by decide
    simp [splitSemiAux, h, ih]

theorem forall₂_trim_refl (xs : List (List Char)) :
    List.Forall₂ (fun a b => trimLeadingSpaces a = trimLeadingSpaces b) xs xs := by
  induction xs with
  | nil => exact List.Forall₂.nil
  | cons x xs ih => exact List.Forall₂.cons rfl ih

theorem splitSemi_spaces_at_segment_start (pre rest : List Char) (k : Nat)
    (hstart : pre = [] ∨ pre.getLast? = some ';') :
    List.Forall₂ (fun a b => trimLeadingSpaces a = trimLeadingSpaces b)
      (splitSemi (pre ++ (List.replicate k ' ' ++ rest))) (splitSemi (pre ++ rest)) := by
  have hhead : List.Forall₂ (fun a b => trimLeadingSpaces a = trimLeadingSpaces b)
      (splitSemi (List.replicate k ' ' ++ rest)) (splitSemi rest) := by
    unfold splitSemi
    rw [splitSemiAux_spaces_append]
    exact List.Forall₂.cons (trimLeadingSpaces_replicate_append k _) (forall₂_trim_refl _)
  rcases hstart with h | h
  · subst h
    simpa using hhead
  · obtain ⟨p, hp⟩ := List.getLast?_eq_some_iff.mp h
    subst hp
    rw [List.append_assoc, List.append_assoc, List.singleton_append, List.singleton_append,
      splitSemi_append_semi, splitSemi_append_semi]
    exact List.rel_append (forall₂_trim_refl _) hhead

/-! ## Claims about `getCookie` -/

/-- C4. Not-found sentinel: when no `;`-separated segment of the jar
string, after removal of its leading spaces, begins with `n` followed by
`=`, `getCookie n` returns the empty string. -/
theorem getCookie_not_found (n jar : String)
    (h : ∀ seg ∈ jar.data.splitOn ';', ¬ (n.data ++ ['=']) <+: trimLeadingSpaces seg) :
    getCookie n jar = "" := by
  unfold getCookie
  rw [scanCookies_no_match _ _ (by rw [splitSemi_eq_splitOn]; exact h)]

/-- C4 at the empty jar string, and at a jar with no entry of that name. -/
theorem getCookie_not_found_witness :
    getCookie "RUST_SESSION_ID" "" = "" ∧ getCookie "b" "a=1; ab=2" = "" :=
  ⟨getCookie_not_found "RUST_SESSION_ID" "" (by decide),
   getCookie_not_found "b" "a=1; ab=2" (by decide)⟩

/-- C5. Leftmost match wins: when the segments of the jar string are
`pre`, then `seg`, then `post`, no segment of `pre` begins (after removal of
leading spaces) with `n=` and `seg` does, `getCookie n` returns the text that
follows `n=` in `seg`, whatever `post` holds. -/
theorem getCookie_leftmost (n jar : String) (pre post : List (List Char))
    (seg value : List Char)
    (hsplit : jar.data.splitOn ';' = pre ++ seg :: post)
    (hpre : ∀ s ∈ pre, ¬ (n.data ++ ['=']) <+: trimLeadingSpaces s)
    (hseg : trimLeadingSpaces seg = (n.data ++ ['=']) ++ value) :
    getCookie n jar = ⟨value⟩ := by
  unfold getCookie
  rw [splitSemi_eq_splitOn, hsplit, scanCookies_leftmost _ value pre seg post hpre hseg]

/-- C5 on the jar `x=1; x=2`: the query `x` yields `1`. -/
theorem getCookie_leftmost_witness : getCookie "x" "x=1; x=2" = "1" :=
  getCookie_leftmost "x" "x=1; x=2" [] [" x=2".data] "x=1".data "1".data
    (by decide) (by decide) (by decide)

/-- C6. Leading-space trimming: inserting `k` space characters at the start
of a segment of the jar string (at the very start, or right after a `;`)
does not change the result of `getCookie n`. -/
theorem getCookie_leading_spaces (n pre rest : String) (k : Nat)
    (hstart : pre.data = [] ∨ pre.data.getLast? = some ';') :
    getCookie n (pre ++ (⟨List.replicate k ' '⟩ ++ rest)) = getCookie n (pre ++ rest) := by
  unfold getCookie
  rw [String.data_append, String.data_append, String.data_append]
  rw [scanCookies_congr _ _ _ (splitSemi_spaces_at_segment_start pre.data rest.data k hstart)]

/-- C6 on the jar `a=1; b=2`: the space after the `;` does not matter and
the query `b` yields `2`. -/
theorem getCookie_leading_spaces_witness :
    getCookie "b" ("a=1;" ++ (⟨List.replicate 1 ' '⟩ ++ "b=2")) = getCookie "b" ("a=1;" ++ "b=2")
      ∧ getCookie "b" "a=1; b=2" = "2" :=
  ⟨getCookie_leading_spaces "b" "a=1;" "b=2" 1 (by decide), by decide⟩

/-! ## Claims about `startSession` -/

theorem lookupReader_get_cookie : lookupReader "get_cookie" = none := by
  unfold lookupReader
  rw [if_neg]
  decide

theorem lookupReader_getCookie : lookupReader "getCookie" = some getCookie := by
  unfold lookupReader
  rw [if_pos]
  decide

theorem startSession_throws (documentCookie : String) (bridge : Bridge) :
    startSession documentCookie bridge = ⟨[], .referenceError "get_cookie"⟩ := by
  unfold startSession
  rw [lookupReader_get_cookie]
  rfl

/-- With `get_cookie` bound to `getCookie` (the reader the script does
declare) and a session recorded, the run logs and stops: no bridge call. -/
theorem startSessionWith_getCookie_present (documentCookie : String) (bridge : Bridge)
    (h : getCookie "RUST_SESSION_ID" documentCookie ≠ "") :
    startSessionWith (some getCookie) documentCookie bridge =
      ⟨[.consoleLog "TEST"], .normal⟩ := by
  simp only [startSessionWith, h, if_false]

/-- With `get_cookie` bound to `getCookie` and no session recorded, the run
calls `get_uuid` once and continues with its callbacks. -/
theorem startSessionWith_getCookie_absent (documentCookie : String) (bridge : Bridge)
    (h : getCookie "RUST_SESSION_ID" documentCookie = "") :
    startSessionWith (some getCookie) documentCookie bridge =
      ⟨.consoleLog "TEST" :: .invoke "get_uuid" [] :: afterGetUuid bridge, .normal⟩ := by
  simp only [startSessionWith, h, if_true]

theorem afterGetUuid_resolved (bridge : Bridge) (u : String)
    (h : bridge.get_uuid = .resolved u) :
    afterGetUuid bridge =
      .invoke "start_session" [("sessionId", u)] :: afterStartSession (bridge.start_session u) := by
  simp only [afterGetUuid, h]

theorem afterGetUuid_rejected (bridge : Bridge) (e : String)
    (h : bridge.get_uuid = .rejected e) :
    afterGetUuid bridge = [.unhandledRejection e] := by
  simp only [afterGetUuid, h]

theorem afterGetUuid_no_cookieWrite (bridge : Bridge) (assigned : String) :
    Effect.cookieWrite assigned ∉ afterGetUuid bridge := by
  unfold afterGetUuid
  cases bridge.get_uuid with
  | resolved u =>
    cases hs : bridge.start_session u <;> simp [afterStartSession, hs]
  | rejected e => simp
  | pending => simp

theorem startSessionWith_no_cookieWrite (get_cookie : Option (String → String → String))
    (documentCookie : String) (bridge : Bridge) (assigned : String) :
    Effect.cookieWrite assigned ∉ (startSessionWith get_cookie documentCookie bridge).effects := by
  cases get_cookie with
  | none => simp [startSessionWith]
  | some callee =>
    by_cases h : callee "RUST_SESSION_ID" documentCookie = ""
    · simp [startSessionWith, h, afterGetUuid_no_cookieWrite]
    · simp [startSessionWith, h]

theorem Jar.after_of_no_cookieWrite (jar : Jar) (effects : List Effect)
    (h : ∀ assigned, Effect.cookieWrite assigned ∉ effects) : jar.after effects = jar := by
  induction effects with
  | nil => rfl
  | cons eff rest ih =>
    have hrest : ∀ assigned, Effect.cookieWrite assigned ∉ rest :=
      fun a ha => h a (List.mem_cons_of_mem eff ha)
    cases eff with
    | cookieWrite a => exact absurd (List.mem_cons_self _ rest) (h a)
    | consoleLog m => simpa only [Jar.after] using ih hrest
    | consoleError m => simpa only [Jar.after] using ih hrest
    | invoke c a => simpa only [Jar.after] using ih hrest
    | unhandledRejection m => simpa only [Jar.after] using ih hrest

/-- C1, on the code as written. With the jar `RUST_SESSION_ID=existing-id`
the recorded session is found by `getCookie`, yet `startSession` does not
terminate normally: its first statement calls the unbound `get_cookie` and
the `ReferenceError` escapes, whatever the bridge would answer. -/
theorem startSession_existing_session_throws (bridge : Bridge) :
    getCookie "RUST_SESSION_ID" "RUST_SESSION_ID=existing-id" = "existing-id" ∧
      startSession "RUST_SESSION_ID=existing-id" bridge =
        ⟨[], .referenceError "get_cookie"⟩ :=
  ⟨by decide, startSession_throws _ bridge⟩

/-- C2, on the code as written. With the empty jar and a bridge whose
`get_uuid` resolves to `abc-123`, `startSession` invokes nothing: it throws
the `ReferenceError` of `get_cookie` before any bridge call. -/
theorem startSession_empty_jar_throws :
    getCookie "RUST_SESSION_ID" "" = "" ∧
      startSession "" ⟨.resolved "abc-123", fun _ => .resolved ()⟩ =
        ⟨[], .referenceError "get_cookie"⟩ :=
  ⟨by decide, startSession_throws _ _⟩

/-- C7, on the code as written. With the empty jar, `get_uuid` resolving
and `start_session` rejecting, nothing reaches `console.error` and an
exception does escape: the `ReferenceError` of `get_cookie`. -/
theorem startSession_register_failure_throws :
    (startSession "" ⟨.resolved "abc-123", fun _ => .rejected "refused"⟩).effects = [] ∧
      (startSession "" ⟨.resolved "abc-123", fun _ => .rejected "refused"⟩).completion =
        .referenceError "get_cookie" := by
  rw [startSession_throws]
  exact ⟨rfl, rfl⟩

/-- C9. `startSession` does not write the cookie jar: whatever the jar
holds and however the bridge calls settle, no effect of the run is an
assignment to `document.cookie` and the jar after the run is the jar before
it; this holds for the function as written and also with `get_cookie` bound
to any reader. -/
theorem startSession_leaves_jar (jar : Jar) (now : Nat) (bridge : Bridge)
    (get_cookie : Option (String → String → String)) :
    ((∀ assigned, Effect.cookieWrite assigned ∉ (startSession (jar.read now) bridge).effects) ∧
      jar.after (startSession (jar.read now) bridge).effects = jar) ∧
    ((∀ assigned,
        Effect.cookieWrite assigned ∉ (startSessionWith get_cookie (jar.read now) bridge).effects) ∧
      jar.after (startSessionWith get_cookie (jar.read now) bridge).effects = jar) :=
  ⟨⟨fun a => startSessionWith_no_cookieWrite _ _ bridge a,
      Jar.after_of_no_cookieWrite jar _ (fun a => startSessionWith_no_cookieWrite _ _ bridge a)⟩,
    ⟨fun a => startSessionWith_no_cookieWrite _ _ bridge a,
      Jar.after_of_no_cookieWrite jar _ (fun a => startSessionWith_no_cookieWrite _ _ bridge a)⟩⟩

/-- An entry whose value is empty reads as the not-found sentinel: when the
leftmost segment matching `n=` is exactly `n=`, `getCookie n` returns the
empty string, whatever later segments hold. -/
theorem getCookie_empty_value (n jar : String) (pre post : List (List Char)) (seg : List Char)
    (hsplit : jar.data.splitOn ';' = pre ++ seg :: post)
    (hpre : ∀ s ∈ pre, ¬ (n.data ++ ['=']) <+: trimLeadingSpaces s)
    (hseg : trimLeadingSpaces seg = n.data ++ ['=']) :
    getCookie n jar = "" := by
  unfold getCookie
  rw [splitSemi_eq_splitOn, hsplit,
    scanCookies_leftmost _ [] pre seg post hpre (by rw [hseg, List.append_nil])]

/-- C10, on the code as written. With the jar `RUST_SESSION_ID=` (also
when a later entry carries a value) `getCookie` returns the empty string as
for an absent cookie, but `startSession` never reaches its session check: it
throws the `ReferenceError` of `get_cookie`, so the no-session branch and its
`get_uuid` call are not taken. -/
theorem startSession_empty_value_throws (bridge : Bridge) :
    getCookie "RUST_SESSION_ID" "RUST_SESSION_ID=" = "" ∧
      getCookie "RUST_SESSION_ID" "RUST_SESSION_ID=; RUST_SESSION_ID=later" = "" ∧
      getCookie "RUST_SESSION_ID" "" = "" ∧
      startSession "RUST_SESSION_ID=" bridge = ⟨[], .referenceError "get_cookie"⟩ :=
  ⟨by decide, by decide, by decide, startSession_throws _ bridge⟩

/-! ## Claims about `setCookie` -/

theorem timeClip_of_le (t : Nat) (h : t ≤ 8640000000000000) : timeClip t = some t := by
  simp only [timeClip, h, if_true]

/-- C8, as written in the specification, fails: the string assigned is not
of the spaced form `name=value; expires=<date>; path=/` (the separators are
bare `;`), and past the range of `Date` no date is written at all. -/
theorem setCookie_written_form_counterexample :
    (setCookie "a" "1" 1 0).effects ≠
        [.cookieWrite ("a" ++ "=" ++ "1" ++ "; expires=" ++
          String.mk (rfc1123 (0 + 1 * 86400000)) ++ "; path=/")] ∧
      (setCookie "a" "1" 1 0).effects =
        [.cookieWrite "a=1;expires=Fri, 02 Jan 1970 00:00:00 GMT;path=/"] ∧
      (setCookie "a" "1" 100000000 1).effects =
        [.cookieWrite "a=1;expires=Invalid Date;path=/"] := by
  decide

/-- C8, amended. `setCookie(name, value, days)` run at clock reading `now`
performs exactly one write to the jar, of the string
`name=value;expires=<date>;path=/`, where, as long as
`now + days * 86400000` does not exceed 8.64e15, `<date>` is the RFC 1123
rendering of that time value. -/
theorem setCookie_written_form (name value : String) (days now : Nat)
    (hrange : now + days * 86400000 ≤ 8640000000000000) :
    (setCookie name value days now).effects =
      [.cookieWrite (name ++ "=" ++ value ++ ";expires=" ++
        String.mk (rfc1123 (now + days * 86400000)) ++ ";path=/")] := by
  have h : now + days * 24 * 60 * 60 * 1000 = now + days * 86400000 := by omega
  have hsep : (";expires=" : String) = ";" ++ "expires=" := by decide
  simp only [setCookie, setCookieAssigned, h, timeClip_of_le _ hrange, toUTCString, hsep,
    String.append_assoc]

/-- C8 amended, for one day from the epoch. -/
theorem setCookie_written_form_witness :
    (setCookie "a" "1" 1 0).effects =
      [.cookieWrite ("a" ++ "=" ++ "1" ++ ";expires=" ++
        String.mk (rfc1123 (0 + 1 * 86400000)) ++ ";path=/")] :=
  setCookie_written_form "a" "1" 1 0 (by decide)

/-! ## Facts about the jar -/

theorem splitSemiAux_of_no_semi (a : List Char) (h : ';' ∉ a) : splitSemiAux a = (a, []) := by
  induction a with
  | nil => rfl
  | cons c cs ih =>
    have hc : ¬ c = ';' := fun hc => h (hc ▸ List.mem_cons_self c cs)
    have hcs : ';' ∉ cs := fun hm => h (List.mem_cons_of_mem c hm)
    simp [splitSemiAux, hc, ih hcs]

theorem splitSemi_of_no_semi (a : List Char) (h : ';' ∉ a) : splitSemi a = [a] := by
  unfold splitSemi
  rw [splitSemiAux_of_no_semi a h]

theorem splitSemiAux_fst_no_semi (s : List Char) : ';' ∉ (splitSemiAux s).1 := by
  induction s with
  | nil => simp [splitSemiAux]
  | cons c cs ih =>
    by_cases hc : c = ';'
    · simp [splitSemiAux, hc]
    · simp only [splitSemiAux, hc, if_false, List.mem_cons, not_or]
      exact ⟨fun h => hc h.symm, ih⟩

theorem beforeEq_append (n v : List Char) (h : '=' ∉ n) : beforeEq (n ++ '=' :: v) = n := by
  induction n with
  | nil => simp [beforeEq]
  | cons c cs ih =>
    have hc : ¬ c = '=' := fun hc => h (hc ▸ List.mem_cons_self c cs)
    have hcs : '=' ∉ cs := fun hm => h (List.mem_cons_of_mem c hm)
    have hb : (c != '=') = true := by simpa using hc
    have ih2 := ih hcs
    unfold beforeEq at ih2 ⊢
    rw [List.cons_append, List.takeWhile_cons, hb, if_pos rfl, ih2]

theorem afterEq_append (n v : List Char) (h : '=' ∉ n) : afterEq (n ++ '=' :: v) = v := by
  induction n with
  | nil => simp [afterEq]
  | cons c cs ih =>
    have hc : ¬ c = '=' := fun hc => h (hc ▸ List.mem_cons_self c cs)
    have hcs : '=' ∉ cs := fun hm => h (List.mem_cons_of_mem c hm)
    have hb : (c != '=') = true := by simpa using hc
    have ih2 := ih hcs
    unfold afterEq at ih2 ⊢
    rw [List.cons_append, List.dropWhile_cons, hb, if_pos rfl, ih2]

theorem trimLeadingSpaces_of_head (s : List Char) (h : s.head? ≠ some ' ') :
    trimLeadingSpaces s = s := by
  cases s with
  | nil => rfl
  | cons c cs =>
    have hc : ¬ c = ' ' := fun hc => h (by rw [hc]; rfl)
    simp [trimLeadingSpaces, hc]

theorem Entry.trim_text (e : Entry) (h : e.WellFormed) :
    trimLeadingSpaces e.text = e.text := by
  apply trimLeadingSpaces_of_head
  intro hc
  exact absurd (h.2.2.2 ' ' hc) (by decide)

theorem Entry.text_no_semi (e : Entry) (h : e.WellFormed) : ';' ∉ e.text := by
  obtain ⟨h1, _, h2, _⟩ := h
  unfold Entry.text
  split
  · exact h2
  · intro hm
    rcases List.mem_append.mp hm with hm | hm
    · exact h1 hm
    · rcases List.mem_cons.mp hm with hm | hm
      · exact absurd hm (by decide)
      · exact h2 hm

theorem scanCookies_of_map_trim (name : List Char) (xs ys : List (List Char))
    (h : xs.map trimLeadingSpaces = ys.map trimLeadingSpaces) :
    scanCookies name xs = scanCookies name ys := by
  induction xs generalizing ys with
  | nil =>
    cases ys with
    | nil => rfl
    | cons y ys => simp at h
  | cons x xs ih =>
    cases ys with
    | nil => simp at h
    | cons y ys =>
      simp only [List.map_cons, List.cons.injEq] at h
      simp only [scanCookies, h.1, ih ys h.2]

/-- Splitting texts joined by `; ` gives the texts back, up to the space
that follows each separator. -/
theorem splitSemi_intercalate_texts (t : List Char) (ts : List (List Char))
    (h : ∀ x ∈ t :: ts, ';' ∉ x) :
    (splitSemi ("; ".data.intercalate (t :: ts))).map trimLeadingSpaces =
      (t :: ts).map trimLeadingSpaces := by
  induction ts generalizing t with
  | nil =>
    have hsemi := h t (List.mem_cons_self t [])
    simp [List.intercalate, List.intersperse, splitSemi_of_no_semi _ hsemi]
  | cons t2 ts ih =>
    have hsemi := h t (List.mem_cons_self t _)
    have ih2 := ih t2 (fun x hx => h x (List.mem_cons_of_mem t hx))
    have hsplit : "; ".data.intercalate (t :: t2 :: ts) =
        t ++ ';' :: (' ' :: "; ".data.intercalate (t2 :: ts)) := by
      simp [List.intercalate, List.intersperse]
    rw [hsplit, splitSemi_append_semi, splitSemi_of_no_semi _ hsemi]
    have hsp : (splitSemi (' ' :: "; ".data.intercalate (t2 :: ts))).map trimLeadingSpaces =
        (splitSemi ("; ".data.intercalate (t2 :: ts))).map trimLeadingSpaces := by
      unfold splitSemi
      have := splitSemiAux_spaces_append 1 ("; ".data.intercalate (t2 :: ts))
      simp only [List.replicate_one, List.singleton_append] at this
      rw [this]
      simp [trimLeadingSpaces]
    rw [List.map_append, hsp, ih2]
    rfl

/-- Scanning texts that do not begin with a space: when some text starts
with `name` and every text that does is `name` followed by `value`, the scan
yields `value`. -/
theorem scanCookies_texts (name value : List Char) (ts : List (List Char))
    (htrim : ∀ t ∈ ts, trimLeadingSpaces t = t) (hex : ∃ t ∈ ts, name <+: t)
    (hall : ∀ t ∈ ts, name <+: t → t = name ++ value) :
    scanCookies name ts = value := by
  induction ts with
  | nil =>
    obtain ⟨t, ht, _⟩ := hex
    exact absurd ht (List.not_mem_nil t)
  | cons t ts ih =>
    have ht := htrim t (List.mem_cons_self t ts)
    by_cases hp : name <+: t
    · apply scanCookies_hit
      rw [ht]
      exact hall t (List.mem_cons_self t ts) hp
    · have hskip : ¬ indexOf (trimLeadingSpaces t) name = 0 := by
        rw [indexOf_eq_zero_iff, ht]
        exact hp
      simp only [scanCookies, hskip, if_false]
      apply ih (fun x hx => htrim x (List.mem_cons_of_mem t hx))
      · obtain ⟨x, hx, hxp⟩ := hex
        rcases List.mem_cons.mp hx with hx | hx
        · exact absurd (hx ▸ hxp) hp
        · exact ⟨x, hx, hxp⟩
      · exact fun x hx => hall x (List.mem_cons_of_mem t hx)

/-- Reading a jar of well-formed entries in which a visible entry reads
`n=v` and every entry that reads as `n=` reads `n=v`: `getCookie n` yields
`v`. -/
theorem getCookie_read (n v : String) (now : Nat) (jar : Jar)
    (hwf : ∀ e ∈ jar.entries, e.WellFormed)
    (hex : ∃ x ∈ jar.entries, x.visible now = true ∧ x.text = (n.data ++ ['=']) ++ v.data)
    (hall : ∀ x ∈ jar.entries, (n.data ++ ['=']) <+: x.text →
      x.text = (n.data ++ ['=']) ++ v.data) :
    getCookie n (jar.read now) = v := by
  unfold getCookie Jar.read
  have hmem : ∀ x, x ∈ ((jar.entries.filter (Entry.visible now)).insertionSort listedBefore) ↔
      (x ∈ jar.entries ∧ x.visible now = true) := by
    intro x
    rw [List.mem_insertionSort, List.mem_filter]
  generalize (jar.entries.filter (Entry.visible now)).insertionSort listedBefore = shown at hmem
  have htrim : ∀ t ∈ shown.map Entry.text, trimLeadingSpaces t = t := by
    intro t ht
    obtain ⟨x, hx, hxt⟩ := List.mem_map.mp ht
    rw [← hxt]
    exact Entry.trim_text x (hwf x ((hmem x).mp hx).1)
  have hsemi : ∀ t ∈ shown.map Entry.text, ';' ∉ t := by
    intro t ht
    obtain ⟨x, hx, hxt⟩ := List.mem_map.mp ht
    rw [← hxt]
    exact Entry.text_no_semi x (hwf x ((hmem x).mp hx).1)
  have hex2 : ∃ t ∈ shown.map Entry.text, (n.data ++ ['=']) <+: t := by
    obtain ⟨x, hx, hxv, hxt⟩ := hex
    exact ⟨x.text, List.mem_map.mpr ⟨x, (hmem x).mpr ⟨hx, hxv⟩, rfl⟩,
      hxt ▸ List.prefix_append _ _⟩
  have hall2 : ∀ t ∈ shown.map Entry.text, (n.data ++ ['=']) <+: t →
      t = (n.data ++ ['=']) ++ v.data := by
    intro t ht hp
    obtain ⟨x, hx, hxt⟩ := List.mem_map.mp ht
    rw [← hxt] at hp ⊢
    exact hall x ((hmem x).mp hx).1 hp
  cases hs : shown.map Entry.text with
  | nil =>
    rw [hs] at hex2
    obtain ⟨t, ht, _⟩ := hex2
    exact absurd ht (List.not_mem_nil t)
  | cons t ts =>
    rw [hs] at htrim hsemi hex2 hall2
    rw [scanCookies_of_map_trim _ _ _ (splitSemi_intercalate_texts t ts hsemi)]
    rw [scanCookies_texts _ v.data (t :: ts) htrim hex2 hall2]

/-! ## Facts about dates -/

theorem yearOfEra_facts (doe yoe : Nat) (h : doe < 146097)
    (hy : yoe = (doe - doe / 1460 + doe / 36524 - doe / 146096) / 365) :
    yoe ≤ 399 ∧ 365 * yoe + yoe / 4 - yoe / 100 ≤ doe ∧
      doe - (365 * yoe + yoe / 4 - yoe / 100) ≤ 365 := by
  have hc : doe / 36524 = 0 ∨ doe / 36524 = 1 ∨ doe / 36524 = 2 ∨ doe / 36524 = 3 ∨
      doe / 36524 = 4 := by omega
  have hc2 : yoe / 100 = 0 ∨ yoe / 100 = 1 ∨ yoe / 100 = 2 ∨ yoe / 100 = 3 := by omega
  rcases hc with hc | hc | hc | hc | hc <;> rcases hc2 with hc2 | hc2 | hc2 | hc2 <;> omega

theorem monthOfYear_facts (doy mp : Nat) (h : doy ≤ 365) (hmp : mp = (5 * doy + 2) / 153) :
    mp ≤ 11 ∧ (153 * mp + 2) / 5 ≤ doy ∧ doy - (153 * mp + 2) / 5 ≤ 30 := by
  omega

/-- The calendar date of a day number, by era, day of era, year of era, day
of year (from 1 March) and month (from March). -/
theorem civilFromDays_spec (day : Nat) :
    ∃ era doe yoe doy mp : Nat,
      day + 719468 = era * 146097 + doe ∧ doe < 146097 ∧ yoe ≤ 399 ∧
      365 * yoe + yoe / 4 - yoe / 100 + doy = doe ∧ doy ≤ 365 ∧ mp ≤ 11 ∧
      (153 * mp + 2) / 5 ≤ doy ∧ doy - (153 * mp + 2) / 5 ≤ 30 ∧
      civilFromDays day =
        (if mp < 10 then yoe + era * 400 else yoe + era * 400 + 1,
         if mp < 10 then mp + 3 else mp - 9,
         doy - (153 * mp + 2) / 5 + 1) := by
  have hdoe : (day + 719468) % 146097 < 146097 := Nat.mod_lt _ (by decide)
  obtain ⟨h1, h2, h3⟩ := yearOfEra_facts _ _ hdoe rfl
  obtain ⟨h4, h5, h6⟩ := monthOfYear_facts _ _ h3 rfl
  refine ⟨(day + 719468) / 146097, (day + 719468) % 146097, _, _, _, ?_, hdoe, h1, ?_, h3, h4, h5,
    h6, ?_⟩
  · omega
  · omega
  · unfold civilFromDays
    simp only []
    split_ifs <;> first | rfl | omega

/-- The day number of the calendar date of a day number is that day
number. -/
theorem daysFromCivil_civilFromDays (day : Nat) :
    daysFromCivil (civilFromDays day).1 (civilFromDays day).2.1 (civilFromDays day).2.2 = day := by
  obtain ⟨era, doe, yoe, doy, mp, hz, hdoe, hyoe, hdoy, hdoy2, hmp, hm1, hm2, hciv⟩ :=
    civilFromDays_spec day
  rw [hciv]
  unfold daysFromCivil
  have e1 : (yoe + era * 400) / 400 = era := by omega
  have e2 : (yoe + era * 400) % 400 = yoe := by omega
  by_cases hlt : mp < 10
  · have hm : ¬ mp + 3 ≤ 2 := by omega
    have hm3 : 2 < mp + 3 := by omega
    simp only [hlt, if_true, hm, if_false, hm3, Nat.add_sub_cancel, e1, e2]
    omega
  · have hm : mp - 9 ≤ 2 := by omega
    have hm3 : ¬ 2 < mp - 9 := by omega
    have e3 : mp - 9 + 9 = mp := by omega
    simp only [hlt, if_false, hm, if_true, hm3, Nat.add_sub_cancel, e1, e2, e3]
    omega

/-- Ranges of the calendar date of a day number. -/
theorem civilFromDays_ranges (day : Nat) :
    1970 ≤ (civilFromDays day).1 ∧ 1 ≤ (civilFromDays day).2.1 ∧ (civilFromDays day).2.1 ≤ 12 ∧
      1 ≤ (civilFromDays day).2.2 ∧ (civilFromDays day).2.2 ≤ 31 := by
  obtain ⟨era, doe, yoe, doy, mp, hz, hdoe, hyoe, hdoy, hdoy2, hmp, hm1, hm2, hciv⟩ :=
    civilFromDays_spec day
  rw [hciv]
  have hmpd : mp < 10 → doy ≤ 305 := by omega
  have hc : yoe / 100 = 0 ∨ yoe / 100 = 1 ∨ yoe / 100 = 2 ∨ yoe / 100 = 3 := by omega
  have hera : 4 ≤ era := by omega
  have hyear : 1970 ≤ yoe + era * 400 ∨ (yoe + era * 400 = 1969 ∧ 306 ≤ doy) := by
    by_cases h5 : 5 ≤ era
    · left
      omega
    · have h4 : era = 4 := by omega
      subst h4
      have hq : yoe / 4 ≤ 99 := by omega
      rcases hc with hc | hc | hc | hc <;> omega
  by_cases hlt : mp < 10
  · have := hmpd hlt
    simp only [hlt, if_true]
    refine ⟨?_, ?_, ?_, ?_, ?_⟩ <;> omega
  · simp only [hlt, if_false]
    refine ⟨?_, ?_, ?_, ?_, ?_⟩ <;> omega

theorem digitVal_digitChar (d : Nat) : digitVal (digitChar d) = some (d % 10) := by
  unfold digitChar
  have h : d % 10 < 10 := Nat.mod_lt _ (by decide)
  generalize d % 10 = k at h
  interval_cases k <;> decide

theorem parseDigits_twoDigits (n : Nat) (h : n < 100) : parseDigits (twoDigits n) = some n := by
  simp only [parseDigits, twoDigits, List.foldl, digitVal_digitChar, Option.bind, Option.map,
    reduceCtorEq, if_false]
  congr 1
  omega

theorem parseDigits_yearDigits (y : Nat) (h : y < 10000) : parseDigits (yearDigits y) = some y := by
  simp only [parseDigits, yearDigits, h, if_true, List.foldl, digitVal_digitChar, Option.bind,
    Option.map, reduceCtorEq, if_false]
  congr 1
  omega

theorem digitChar_ne_semi (d : Nat) : digitChar d ≠ ';' := by
  unfold digitChar
  have h : d % 10 < 10 := Nat.mod_lt _ (by decide)
  generalize d % 10 = k at h
  interval_cases k <;> decide

theorem toDigitsCore_length_le (f n : Nat) (ds : List Char) :
    ds.length ≤ (Nat.toDigitsCore 10 f n ds).length := by
  induction f generalizing n ds with
  | zero => simp [Nat.toDigitsCore]
  | succ f ih =>
    simp only [Nat.toDigitsCore]
    split
    · simp
    · exact Nat.le_trans (by simp) (ih _ _)

theorem toDigitsCore_no_semi (f n : Nat) (ds : List Char) (h : ';' ∉ ds) :
    ';' ∉ Nat.toDigitsCore 10 f n ds := by
  induction f generalizing n ds with
  | zero => simpa [Nat.toDigitsCore] using h
  | succ f ih =>
    have hd : ';' ∉ Nat.digitChar (n % 10) :: ds := by
      have hk : n % 10 < 10 := Nat.mod_lt _ (by decide)
      have hne : Nat.digitChar (n % 10) ≠ ';' := by
        generalize n % 10 = k at hk
        interval_cases k <;> decide
      intro hm
      rcases List.mem_cons.mp hm with hm | hm
      · exact hne hm.symm
      · exact h hm
    simp only [Nat.toDigitsCore]
    split
    · exact hd
    · exact ih _ _ hd

theorem toDigits_length_ge (y : Nat) (h : 10000 ≤ y) : 5 ≤ (Nat.toDigits 10 y).length := by
  obtain ⟨k, hk⟩ : ∃ k, y = k + 4 := ⟨y - 4, by omega⟩
  have h1 : ¬ y / 10 = 0 := by omega
  have h2 : ¬ y / 10 / 10 = 0 := by omega
  have h3 : ¬ y / 10 / 10 / 10 = 0 := by omega
  have h4 : ¬ y / 10 / 10 / 10 / 10 = 0 := by omega
  unfold Nat.toDigits
  rw [hk] at h1 h2 h3 h4 ⊢
  simp only [Nat.toDigitsCore, h1, h2, h3, h4, if_false]
  split
  · simp
  · exact Nat.le_trans (by simp) (toDigitsCore_length_le _ _ _)

theorem yearDigits_no_semi (y : Nat) : ';' ∉ yearDigits y := by
  unfold yearDigits
  split
  · simp only [List.mem_cons, List.mem_singleton, List.not_mem_nil, or_false, not_or]
    exact ⟨(digitChar_ne_semi _).symm, (digitChar_ne_semi _).symm, (digitChar_ne_semi _).symm,
      (digitChar_ne_semi _).symm⟩
  · exact toDigitsCore_no_semi _ _ _ (List.not_mem_nil _)

theorem twoDigits_no_semi (n : Nat) : ';' ∉ twoDigits n := by
  simp only [twoDigits, List.mem_cons, List.mem_singleton, List.not_mem_nil, or_false, not_or]
  exact ⟨(digitChar_ne_semi _).symm, (digitChar_ne_semi _).symm⟩

theorem dayName_shape (i : Nat) (h : i < 7) :
    ∃ a b c : Char, (dayNames.getD i "").data = [a, b, c] ∧ isWsp a = false ∧
      a ≠ ';' ∧ b ≠ ';' ∧ c ≠ ';' := by
  interval_cases i <;> exact ⟨_, _, _, rfl, by decide, by decide, by decide, by decide⟩

theorem monthName_shape (i : Nat) (h : i < 12) :
    ∃ a b c : Char, (monthNames.getD i "").data = [a, b, c] ∧
      monthNames.indexOf? (String.mk [a, b, c]) = some i ∧ a ≠ ';' ∧ b ≠ ';' ∧ c ≠ ';' := by
  interval_cases i <;> exact ⟨_, _, _, rfl, by decide, by decide, by decide, by decide⟩

theorem rfc1123_unfold (t : Nat) : rfc1123 t =
      (dayNames.getD (weekDay (t / 1000 / 86400)) "").data ++ ([',', ' '] ++
        (twoDigits (civilFromDays (t / 1000 / 86400)).2.2 ++ ([' '] ++
        ((monthNames.getD ((civilFromDays (t / 1000 / 86400)).2.1 - 1) "").data ++ ([' '] ++
        (yearDigits (civilFromDays (t / 1000 / 86400)).1 ++ ([' '] ++
        (twoDigits (t / 1000 % 86400 / 3600) ++ ([':'] ++
        (twoDigits (t / 1000 % 86400 % 3600 / 60) ++ ([':'] ++
        (twoDigits (t / 1000 % 86400 % 60) ++ [' ', 'G', 'M', 'T'])))))))))))) := by
  unfold rfc1123
  simp only [List.append_assoc]

/-- The layout of the rendering: three letters of the day, the day of the
month, three letters of the month, the year and the clock. -/
theorem rfc1123_shape (t : Nat) :
    ∃ w1 w2 w3 m1 m2 m3 : Char,
      isWsp w1 = false ∧ w1 ≠ ';' ∧ w2 ≠ ';' ∧ w3 ≠ ';' ∧ m1 ≠ ';' ∧ m2 ≠ ';' ∧ m3 ≠ ';' ∧
      monthNames.indexOf? (String.mk [m1, m2, m3]) =
        some ((civilFromDays (t / 1000 / 86400)).2.1 - 1) ∧
      rfc1123 t =
        w1 :: w2 :: w3 :: ',' :: ' ' :: (twoDigits (civilFromDays (t / 1000 / 86400)).2.2 ++
          ' ' :: m1 :: m2 :: m3 :: ' ' :: (yearDigits (civilFromDays (t / 1000 / 86400)).1 ++
          ' ' :: (twoDigits (t / 1000 % 86400 / 3600) ++ ':' ::
          (twoDigits (t / 1000 % 86400 % 3600 / 60) ++ ':' ::
          (twoDigits (t / 1000 % 86400 % 60) ++ [' ', 'G', 'M', 'T']))))) := by
  have hw : weekDay (t / 1000 / 86400) < 7 := Nat.mod_lt _ (by decide)
  obtain ⟨_, hm1, hm12, _, _⟩ := civilFromDays_ranges (t / 1000 / 86400)
  have hm : (civilFromDays (t / 1000 / 86400)).2.1 - 1 < 12 := by omega
  obtain ⟨w1, w2, w3, hW, hw1, hw1s, hw2s, hw3s⟩ := dayName_shape _ hw
  obtain ⟨m1, m2, m3, hM, hidx, hm1s, hm2s, hm3s⟩ := monthName_shape _ hm
  refine ⟨w1, w2, w3, m1, m2, m3, hw1, hw1s, hw2s, hw3s, hm1s, hm2s, hm3s, hidx, ?_⟩
  rw [rfc1123_unfold, hW, hM]
  rfl

theorem parseDate_explicit (w1 w2 w3 d1 d2 m1 m2 m3 y1 y2 y3 y4 h1 h2 n1 n2 s1 s2 : Char) :
    parseDate [w1, w2, w3, ',', ' ', d1, d2, ' ', m1, m2, m3, ' ', y1, y2, y3, y4, ' ', h1, h2,
        ':', n1, n2, ':', s1, s2, ' ', 'G', 'M', 'T'] =
      match parseDigits [d1, d2], monthNames.indexOf? (String.mk [m1, m2, m3]),
        parseDigits [y1, y2, y3, y4], parseDigits [h1, h2], parseDigits [n1, n2],
        parseDigits [s1, s2] with
      | some d, some m, some y, some hh, some mm, some ss =>
        if 1 ≤ d ∧ d ≤ 31 ∧ 1601 ≤ y ∧ hh ≤ 23 ∧ mm ≤ 59 ∧ ss ≤ 59 then
          some ((daysFromCivil y (m + 1) d * 86400 + hh * 3600 + mm * 60 + ss) * 1000)
        else none
      | _, _, _, _, _, _ => none := by
  rfl

theorem length_of_layout (w1 w2 w3 m1 m2 m3 : Char) (a yd b c d : List Char)
    (ha : a.length = 2) (hb : b.length = 2) (hc : c.length = 2) (hd : d.length = 2)
    (hyd : 5 ≤ yd.length) :
    (w1 :: w2 :: w3 :: ',' :: ' ' :: (a ++ ' ' :: m1 :: m2 :: m3 :: ' ' :: (yd ++
      ' ' :: (b ++ ':' :: (c ++ ':' :: (d ++ [' ', 'G', 'M', 'T'])))))).length ≠ 29 := by
  simp only [List.length_cons, List.length_append, List.length_nil]
  omega

theorem no_semi_of_layout (w1 w2 w3 m1 m2 m3 : Char) (a yd b c d : List Char)
    (hw1 : w1 ≠ ';') (hw2 : w2 ≠ ';') (hw3 : w3 ≠ ';') (hm1 : m1 ≠ ';') (hm2 : m2 ≠ ';')
    (hm3 : m3 ≠ ';') (ha : ';' ∉ a) (hyd : ';' ∉ yd) (hb : ';' ∉ b) (hc : ';' ∉ c)
    (hd : ';' ∉ d) :
    ';' ∉ w1 :: w2 :: w3 :: ',' :: ' ' :: (a ++ ' ' :: m1 :: m2 :: m3 :: ' ' :: (yd ++
      ' ' :: (b ++ ':' :: (c ++ ':' :: (d ++ [' ', 'G', 'M', 'T']))))) := by
  simp only [List.mem_cons, List.mem_append, List.mem_singleton, List.not_mem_nil, not_or,
    or_false]
  refine ⟨hw1.symm, hw2.symm, hw3.symm, by decide, by decide, ha, by decide, hm1.symm, hm2.symm,
    hm3.symm, by decide, hyd, by decide, hb, by decide, hc, by decide, hd, by decide,
    by decide, by decide, by decide⟩

theorem trimWsp_of_ends (a z : Char) (body : List Char) (ha : isWsp a = false)
    (hz : isWsp z = false) : trimWsp (a :: (body ++ [z])) = a :: (body ++ [z]) := by
  show List.rdropWhile isWsp (List.dropWhile isWsp (a :: (body ++ [z]))) = _
  rw [List.dropWhile_cons_of_neg (by simp [ha]), ← List.cons_append,
    List.rdropWhile_concat_neg _ _ _ (by simp [hz])]

theorem trimWsp_of_layout (w1 w2 w3 m1 m2 m3 : Char) (a yd b c d : List Char)
    (hw1 : isWsp w1 = false) :
    trimWsp (w1 :: w2 :: w3 :: ',' :: ' ' :: (a ++ ' ' :: m1 :: m2 :: m3 :: ' ' :: (yd ++
      ' ' :: (b ++ ':' :: (c ++ ':' :: (d ++ [' ', 'G', 'M', 'T'])))))) =
    w1 :: w2 :: w3 :: ',' :: ' ' :: (a ++ ' ' :: m1 :: m2 :: m3 :: ' ' :: (yd ++
      ' ' :: (b ++ ':' :: (c ++ ':' :: (d ++ [' ', 'G', 'M', 'T']))))) := by
  have hre : w1 :: w2 :: w3 :: ',' :: ' ' :: (a ++ ' ' :: m1 :: m2 :: m3 :: ' ' :: (yd ++
      ' ' :: (b ++ ':' :: (c ++ ':' :: (d ++ [' ', 'G', 'M', 'T']))))) =
      w1 :: ((w2 :: w3 :: ',' :: ' ' :: (a ++ ' ' :: m1 :: m2 :: m3 :: ' ' :: (yd ++
      ' ' :: (b ++ ':' :: (c ++ ':' :: (d ++ [' ', 'G', 'M'])))))) ++ ['T']) := by
    simp
  rw [hre]
  exact trimWsp_of_ends w1 'T' _ hw1 (by decide)

theorem rfc1123_no_semi (t : Nat) : ';' ∉ rfc1123 t := by
  obtain ⟨w1, w2, w3, m1, m2, m3, _, hw1, hw2, hw3, hm1, hm2, hm3, _, hshape⟩ := rfc1123_shape t
  rw [hshape]
  exact no_semi_of_layout _ _ _ _ _ _ _ _ _ _ _ hw1 hw2 hw3 hm1 hm2 hm3 (twoDigits_no_semi _)
    (yearDigits_no_semi _) (twoDigits_no_semi _) (twoDigits_no_semi _) (twoDigits_no_semi _)

theorem trimWsp_rfc1123 (t : Nat) : trimWsp (rfc1123 t) = rfc1123 t := by
  obtain ⟨w1, w2, w3, m1, m2, m3, hw1, _, _, _, _, _, _, _, hshape⟩ := rfc1123_shape t
  rw [hshape]
  exact trimWsp_of_layout _ _ _ _ _ _ _ _ _ _ _ hw1

/-- A date rendered with a four-digit year parses back to its time value,
cut to whole seconds. -/
theorem parseDate_rfc1123 (t : Nat) (hy : (civilFromDays (t / 1000 / 86400)).1 < 10000) :
    parseDate (rfc1123 t) = some (t / 1000 * 1000) := by
  obtain ⟨w1, w2, w3, m1, m2, m3, _, _, _, _, _, _, _, hidx, hshape⟩ := rfc1123_shape t
  have hrt := daysFromCivil_civilFromDays (t / 1000 / 86400)
  obtain ⟨hy1, hm1, hm12, hd1, hd31⟩ := civilFromDays_ranges (t / 1000 / 86400)
  rw [hshape]
  generalize (civilFromDays (t / 1000 / 86400)).1 = y at *
  generalize (civilFromDays (t / 1000 / 86400)).2.1 = m at *
  generalize (civilFromDays (t / 1000 / 86400)).2.2 = d at *
  have hD := parseDigits_twoDigits d (by omega)
  have hY := parseDigits_yearDigits y hy
  have hH := parseDigits_twoDigits (t / 1000 % 86400 / 3600) (by omega)
  have hMi := parseDigits_twoDigits (t / 1000 % 86400 % 3600 / 60) (by omega)
  have hS := parseDigits_twoDigits (t / 1000 % 86400 % 60) (by omega)
  simp only [yearDigits, hy, if_true, twoDigits] at hD hY hH hMi hS ⊢
  have hmm : m - 1 + 1 = m := by omega
  have hvalid : 1 ≤ d ∧ d ≤ 31 ∧ 1601 ≤ y ∧ t / 1000 % 86400 / 3600 ≤ 23 ∧
      t / 1000 % 86400 % 3600 / 60 ≤ 59 ∧ t / 1000 % 86400 % 60 ≤ 59 := by
    refine ⟨hd1, hd31, ?_, ?_, ?_, ?_⟩ <;> omega
  simp only [List.cons_append, List.nil_append]
  rw [parseDate_explicit]
  simp only [hidx, hD, hY, hH, hMi, hS, hmm, hrt]
  rw [if_pos hvalid]
  exact congrArg some (by omega)

/-- A date rendered with a longer year does not parse. -/
theorem parseDate_rfc1123_long (t : Nat) (hy : ¬ (civilFromDays (t / 1000 / 86400)).1 < 10000) :
    parseDate (rfc1123 t) = none := by
  obtain ⟨w1, w2, w3, m1, m2, m3, _, _, _, _, _, _, _, _, hshape⟩ := rfc1123_shape t
  have hl : (rfc1123 t).length ≠ 29 := by
    rw [hshape]
    generalize (civilFromDays (t / 1000 / 86400)).1 = y at *
    have hyd : 5 ≤ (yearDigits y).length := by
      unfold yearDigits
      rw [if_neg hy]
      exact toDigits_length_ge y (by omega)
    exact length_of_layout _ _ _ _ _ _ _ _ _ _ _ rfl rfl rfl rfl hyd
  generalize rfc1123 t = r at hl
  unfold parseDate
  rw [if_neg (fun h => hl h.1)]

theorem expiryOfAttributes_written (r : List Char) (hsemi : ';' ∉ r) (htrim : trimWsp r = r) :
    expiryOfAttributes (splitSemi ("expires=".data ++ r ++ ";path=/".data)) = parseDate r := by
  have hsemi2 : ';' ∉ "expires=".data ++ r := by
    intro hm
    rcases List.mem_append.mp hm with hm | hm
    · exact absurd hm (by decide)
    · exact hsemi hm
  have hcut : "expires=".data ++ r ++ ";path=/".data =
      ("expires=".data ++ r) ++ ';' :: "path=/".data := rfl
  have hpath : splitSemi "path=/".data = ["path=/".data] := by decide
  have hname : "expires=".data ++ r = "expires".data ++ '=' :: r := rfl
  have hnoeq : '=' ∉ "expires".data := by decide
  have hlower : (trimWsp "expires".data).map Char.toLower = "expires".data := by decide
  have hother : ¬ (trimWsp (beforeEq "path=/".data)).map Char.toLower = "expires".data := by
    decide
  rw [hcut, splitSemi_append_semi, splitSemi_of_no_semi _ hsemi2, hpath, hname]
  simp only [expiryOfAttributes, List.singleton_append, List.foldl, beforeEq_append _ _ hnoeq,
    afterEq_append _ _ hnoeq, hlower, if_true, hother, if_false, htrim]
  cases parseDate r <;> rfl

/-- The expiry time the jar reads off what `setCookie` writes is the date
it rendered, when that date parses. -/
theorem writtenExpiry_eq (days now : Nat)
    (h : now + days * 24 * 60 * 60 * 1000 ≤ 8640000000000000) :
    writtenExpiry days now = parseDate (rfc1123 (now + days * 24 * 60 * 60 * 1000)) := by
  unfold writtenExpiry
  rw [timeClip_of_le _ h]
  simp only [toUTCString]
  exact expiryOfAttributes_written _ (rfc1123_no_semi _) (trimWsp_rfc1123 _)

theorem writtenExpiry_invalid (days now : Nat)
    (h : ¬ now + days * 24 * 60 * 60 * 1000 ≤ 8640000000000000) :
    writtenExpiry days now = none := by
  unfold writtenExpiry timeClip
  rw [if_neg h]
  decide

/-- An entry written with at least one day to live is live at the time of
the write. -/
theorem writtenExpiry_live (days now : Nat) (e : Entry)
    (he : e.expiry = writtenExpiry days now) (hdays : 1 ≤ days) : e.live now = true := by
  unfold Entry.live
  rw [he]
  by_cases h : now + days * 24 * 60 * 60 * 1000 ≤ 8640000000000000
  · rw [writtenExpiry_eq days now h]
    by_cases hy : (civilFromDays ((now + days * 24 * 60 * 60 * 1000) / 1000 / 86400)).1 < 10000
    · rw [parseDate_rfc1123 _ hy]
      simp only [decide_eq_true_eq]
      omega
    · rw [parseDate_rfc1123_long _ hy]
  · rw [writtenExpiry_invalid days now h]

theorem trimWsp_sublist (s : List Char) : (trimWsp s).Sublist s :=
  ( List.rdropWhile_prefix isWsp _).sublist.trans (List.dropWhile_sublist isWsp)

theorem trimWsp_head (s : List Char) (c : Char) (h : (trimWsp s).head? = some c) :
    isWsp c = false := by
  have hpre : trimWsp s <+: s.dropWhile isWsp := List.rdropWhile_prefix isWsp _
  obtain ⟨t, ht⟩ := hpre
  have hnot := List.head?_dropWhile_not isWsp s
  cases htrim : trimWsp s with
  | nil => rw [htrim] at h; simp at h
  | cons a as =>
    rw [htrim] at h ht
    simp only [List.head?_cons, Option.some.injEq] at h
    rw [← ht] at hnot
    simp only [List.cons_append, List.head?_cons] at hnot
    rw [← h]
    exact hnot

theorem isWhite_of_isWsp (c : Char) (h : isWsp c = true) : isWhite c = true := by
  simp only [isWsp, Bool.or_eq_true, decide_eq_true_eq] at h
  rcases h with h | h <;> subst h <;> decide

theorem isControl_of_isTerminator (c : Char) (h : isTerminator c = true) :
    isControl c = true := by
  simp only [isTerminator, Bool.or_eq_true, decide_eq_true_eq] at h
  rcases h with (h | h) | h <;> subst h <;> decide

/-- A text that neither begins nor ends with white space is left as it is
by the trimming of the jar. -/
theorem trimWsp_of_edgeClean (s : List Char) (h : edgeClean s = true) : trimWsp s = s := by
  rcases List.eq_nil_or_concat s with hs | ⟨body, z, hs⟩
  · subst hs
    rfl
  · rw [List.concat_eq_append] at hs
    have hz : isWhite z = false := by
      cases hh : s.head? with
      | none =>
        rw [hs] at hh
        cases body <;> simp at hh
      | some a =>
        have hl : s.getLast? = some z := by rw [hs]; simp
        simp only [edgeClean, hh, hl, Bool.and_eq_true, Bool.not_eq_true'] at h
        exact h.2
    have hzw : ¬ isWsp z = true := fun hw => by
      rw [isWhite_of_isWsp z hw] at hz
      exact absurd hz (by decide)
    have hdrop : s.dropWhile isWsp = s := by
      cases hcs : s with
      | nil => rfl
      | cons a as =>
        have hh : s.head? = some a := by rw [hcs]; rfl
        have hl : s.getLast? = some z := by rw [hs]; simp
        have ha : isWhite a = false := by
          simp only [edgeClean, hh, hl, Bool.and_eq_true, Bool.not_eq_true'] at h
          exact h.1
        have haw : ¬ isWsp a = true := fun hw => by
          rw [isWhite_of_isWsp a hw] at ha
          exact absurd ha (by decide)
        exact List.dropWhile_cons_of_neg haw
    show List.rdropWhile isWsp (List.dropWhile isWsp s) = s
    rw [hdrop, hs]
    exact List.rdropWhile_concat_neg _ _ _ hzw

theorem setCookieAssigned_data (n v : String) (days now : Nat) :
    (setCookieAssigned n v days now).data =
      (n.data ++ '=' :: v.data) ++ ';' :: ("expires=".data ++
        toUTCString (timeClip (now + days * 24 * 60 * 60 * 1000)) ++ ";path=/".data) := by
  simp [setCookieAssigned, String.data_append]

/-- The name and the value the jar reads off the string `setCookie` assigns,
for a name and a value it stores unchanged. -/
theorem nameValue_assigned (n v : String) (days now : Nat)
    (hn : n.data ≠ []) (hn1 : ';' ∉ n.data) (hn2 : '=' ∉ n.data)
    (hnw : edgeClean n.data = true) (hnc : n.data.any isControl = false)
    (hv1 : ';' ∉ v.data) (hvw : edgeClean v.data = true) (hvc : v.data.any isControl = false)
    (hsize : utf8Length n.data + utf8Length v.data ≤ 4096) :
    nameValue (setCookieAssigned n v days now).data = some (n.data, v.data) := by
  have hpair : ';' ∉ n.data ++ '=' :: v.data := by
    intro hm
    rcases List.mem_append.mp hm with hm | hm
    · exact hn1 hm
    · rcases List.mem_cons.mp hm with hm | hm
      · exact absurd hm (by decide)
      · exact hv1 hm
  have heq : '=' ∈ n.data ++ '=' :: v.data :=
    List.mem_append_right _ (List.mem_cons_self _ _)
  have hterm : (n.data ++ '=' :: v.data).takeWhile (fun c => !isTerminator c) =
      n.data ++ '=' :: v.data := by
    rw [List.takeWhile_eq_self_iff]
    intro c hc
    have hctl : isControl c = false := by
      rcases List.mem_append.mp hc with hc | hc
      · exact List.any_eq_false.mp hnc c hc |> fun h => by simpa using h
      · rcases List.mem_cons.mp hc with hc | hc
        · subst hc
          decide
        · exact List.any_eq_false.mp hvc c hc |> fun h => by simpa using h
    cases ht : isTerminator c with
    | false => rfl
    | true =>
      rw [isControl_of_isTerminator c ht] at hctl
      exact absurd hctl (by decide)
  rw [setCookieAssigned_data]
  unfold nameValue
  rw [splitSemiAux_append_semi, splitSemiAux_of_no_semi _ hpair]
  simp only [hterm, heq, if_true, beforeEq_append _ _ hn2, afterEq_append _ _ hn2,
    trimWsp_of_edgeClean _ hnw, trimWsp_of_edgeClean _ hvw, hnc, hvc, Bool.or_self,
    Bool.false_eq_true, if_false, Nat.not_lt.mpr hsize, hn, false_and]

theorem toUTCString_no_semi (d : Option Nat) : ';' ∉ toUTCString d := by
  cases d with
  | none => decide
  | some t => exact rfc1123_no_semi t

theorem attributes_written (date : List Char) (hsemi : ';' ∉ date) :
    splitSemi ("expires=".data ++ date ++ ";path=/".data) =
      ["expires".data ++ '=' :: date, "path=/".data] := by
  have hsemi2 : ';' ∉ "expires=".data ++ date := by
    intro hm
    rcases List.mem_append.mp hm with hm | hm
    · exact absurd hm (by decide)
    · exact hsemi hm
  have hcut : "expires=".data ++ date ++ ";path=/".data =
      ("expires=".data ++ date) ++ ';' :: "path=/".data := rfl
  have hpath : splitSemi "path=/".data = ["path=/".data] := by decide
  rw [hcut, splitSemi_append_semi, splitSemi_of_no_semi _ hsemi2, hpath]
  rfl

theorem attributeName_expires (date : List Char) :
    attributeName ("expires".data ++ '=' :: date) = "expires".data := by
  unfold attributeName
  rw [beforeEq_append _ _ (by decide)]
  decide

theorem hasAttribute_httponly_written (date : List Char) :
    hasAttribute "httponly".data ["expires".data ++ '=' :: date, "path=/".data] = false := by
  unfold hasAttribute
  rw [List.any_cons, List.any_cons, List.any_nil, attributeName_expires]
  decide

theorem pathOfAttributes_written (date : List Char) :
    pathOfAttributes ["expires".data ++ '=' :: date, "path=/".data] = some "/".data := by
  have hp : attributeName "path=/".data = "path".data := by decide
  unfold pathOfAttributes
  rw [List.foldl_cons, List.foldl_cons, List.foldl_nil, if_pos hp]
  decide

theorem not_barredByPrefix (n v : List Char) (attrs : List (List Char)) (hn : n ≠ [])
    (hnr : hasReservedPrefix n = false) : barredByPrefix n v attrs = false := by
  simp only [hasReservedPrefix, reservedPrefixes, List.any_cons, List.any_nil, Bool.or_false,
    Bool.or_eq_false_iff] at hnr
  obtain ⟨_, hhost, hhttp⟩ := hnr
  have hhh : "__host-http-".data.isPrefixOf (n.map Char.toLower) = false := by
    cases hp : "__host-http-".data.isPrefixOf (n.map Char.toLower) with
    | false => rfl
    | true =>
      have h1 : "__host-".data ++ "http-".data <+: n.map Char.toLower :=
        List.isPrefixOf_iff_prefix.mp hp
      have h2 : "__host-".data <+: n.map Char.toLower :=
        (List.prefix_append _ _).trans h1
      rw [List.isPrefixOf_iff_prefix.mpr h2] at hhost
      exact absurd hhost (by decide)
  simp only [barredByPrefix, hn, if_false, hhttp, hhh, hasReservedPrefix, reservedPrefixes,
    List.any_cons, List.any_nil, Bool.or_false, hhost, Bool.false_and, Bool.or_self]
  simp_all

/-- The cookie the jar reads off the string `setCookie` assigns, for a name
and a value it stores unchanged. -/
theorem parseSetCookie_assigned (n v : String) (days now : Nat)
    (hn : n.data ≠ []) (hn1 : ';' ∉ n.data) (hn2 : '=' ∉ n.data)
    (hnw : edgeClean n.data = true) (hnc : n.data.any isControl = false)
    (hnr : hasReservedPrefix n.data = false)
    (hv1 : ';' ∉ v.data) (hvw : edgeClean v.data = true) (hvc : v.data.any isControl = false)
    (hsize : utf8Length n.data + utf8Length v.data ≤ 4096) :
    parseSetCookie (setCookieAssigned n v days now).data =
      some ⟨n.data, v.data, writtenExpiry days now, some "/".data⟩ := by
  have hnv := nameValue_assigned n v days now hn hn1 hn2 hnw hnc hv1 hvw hvc hsize
  have hpair : ';' ∉ n.data ++ '=' :: v.data := by
    intro hm
    rcases List.mem_append.mp hm with hm | hm
    · exact hn1 hm
    · rcases List.mem_cons.mp hm with hm | hm
      · exact absurd hm (by decide)
      · exact hv1 hm
  have hattrs : (splitSemiAux (setCookieAssigned n v days now).data).2 =
      ["expires".data ++ '=' :: toUTCString (timeClip (now + days * 24 * 60 * 60 * 1000)),
        "path=/".data] := by
    rw [setCookieAssigned_data, splitSemiAux_append_semi, splitSemiAux_of_no_semi _ hpair]
    exact attributes_written _ (toUTCString_no_semi _)
  have hexp : expiryOfAttributes (splitSemiAux (setCookieAssigned n v days now).data).2 =
      writtenExpiry days now := by
    rw [hattrs]
    unfold writtenExpiry
    rw [attributes_written _ (toUTCString_no_semi _)]
  unfold parseSetCookie
  rw [hnv]
  simp only [hexp]
  rw [hattrs]
  rw [hasAttribute_httponly_written, pathOfAttributes_written]
  simp only [not_barredByPrefix _ _ _ hn hnr, Bool.false_eq_true, if_false]

/-! ### Storing -/

theorem store_isSome (e : Entry) (xs : List Entry)
    (h : ∀ x ∈ xs, x.key = e.key → x.httpOnly = false) : ∃ es, store e xs = some es := by
  induction xs with
  | nil => exact ⟨[e], rfl⟩
  | cons x xs ih =>
    by_cases hk : x.key = e.key
    · have hx := h x (List.mem_cons_self x xs) hk
      exact ⟨e :: xs, by simp [store, hk, hx]⟩
    · obtain ⟨es, hes⟩ := ih (fun y hy => h y (List.mem_cons_of_mem x hy))
      exact ⟨x :: es, by simp [store, hk, hes]⟩

theorem store_mem (e : Entry) (xs es : List Entry) (h : store e xs = some es) : e ∈ es := by
  induction xs generalizing es with
  | nil =>
    simp only [store, Option.some.injEq] at h
    rw [← h]
    exact List.mem_singleton_self e
  | cons x xs ih =>
    by_cases hk : x.key = e.key
    · by_cases hx : x.httpOnly = true
      · simp [store, hk, hx] at h
      · simp only [store, hk, if_true, hx, Bool.false_eq_true, if_false,
          Option.some.injEq] at h
        rw [← h]
        exact List.mem_cons_self e xs
    · simp only [store, hk, if_false, Option.map_eq_some'] at h
      obtain ⟨r, hr, hes⟩ := h
      rw [← hes]
      exact List.mem_cons_of_mem x (ih r hr)

/-- After storing, an entry of the jar is the stored one or an earlier one
of another key. -/
theorem store_mem_cases (e : Entry) (xs es : List Entry) (h : store e xs = some es)
    (hnodup : (xs.map Entry.key).Nodup) (y : Entry) (hy : y ∈ es) :
    y = e ∨ (y ∈ xs ∧ y.key ≠ e.key) := by
  induction xs generalizing es with
  | nil =>
    simp only [store, Option.some.injEq] at h
    rw [← h] at hy
    exact Or.inl (List.mem_singleton.mp hy)
  | cons x xs ih =>
    rw [List.map_cons, List.nodup_cons] at hnodup
    by_cases hk : x.key = e.key
    · by_cases hx : x.httpOnly = true
      · simp [store, hk, hx] at h
      · simp only [store, hk, if_true, hx, Bool.false_eq_true, if_false,
          Option.some.injEq] at h
        rw [← h] at hy
        rcases List.mem_cons.mp hy with hy | hy
        · exact Or.inl hy
        · right
          refine ⟨List.mem_cons_of_mem x hy, fun hyk => hnodup.1 ?_⟩
          rw [hk, ← hyk]
          exact List.mem_map_of_mem Entry.key hy
    · simp only [store, hk, if_false, Option.map_eq_some'] at h
      obtain ⟨r, hr, hes⟩ := h
      rw [← hes] at hy
      rcases List.mem_cons.mp hy with hy | hy
      · exact Or.inr ⟨hy ▸ List.mem_cons_self x xs, hy ▸ hk⟩
      · rcases ih r hr hnodup.2 hy with hye | ⟨hyx, hyk⟩
        · exact Or.inl hye
        · exact Or.inr ⟨List.mem_cons_of_mem x hyx, hyk⟩

theorem store_keys (e : Entry) (xs es : List Entry) (h : store e xs = some es) :
    ∀ k, k ∈ es.map Entry.key → k = e.key ∨ k ∈ xs.map Entry.key := by
  induction xs generalizing es with
  | nil =>
    simp only [store, Option.some.injEq] at h
    rw [← h]
    intro k hk
    simpa using hk
  | cons x xs ih =>
    by_cases hk : x.key = e.key
    · by_cases hx : x.httpOnly = true
      · simp [store, hk, hx] at h
      · simp only [store, hk, if_true, hx, Bool.false_eq_true, if_false,
          Option.some.injEq] at h
        rw [← h]
        intro k hkm
        rcases List.mem_cons.mp hkm with hkm | hkm
        · exact Or.inl hkm
        · exact Or.inr (List.mem_cons_of_mem _ hkm)
    · simp only [store, hk, if_false, Option.map_eq_some'] at h
      obtain ⟨r, hr, hes⟩ := h
      rw [← hes]
      intro k hkm
      rcases List.mem_cons.mp hkm with hkm | hkm
      · exact Or.inr (hkm ▸ List.mem_cons_self _ _)
      · rcases ih r hr k hkm with h1 | h1
        · exact Or.inl h1
        · exact Or.inr (List.mem_cons_of_mem _ h1)

/-- Storing keeps the keys of the jar distinct. -/
theorem store_nodup (e : Entry) (xs es : List Entry) (h : store e xs = some es)
    (hnodup : (xs.map Entry.key).Nodup) : (es.map Entry.key).Nodup := by
  induction xs generalizing es with
  | nil =>
    simp only [store, Option.some.injEq] at h
    rw [← h]
    simp
  | cons x xs ih =>
    rw [List.map_cons, List.nodup_cons] at hnodup
    by_cases hk : x.key = e.key
    · by_cases hx : x.httpOnly = true
      · simp [store, hk, hx] at h
      · simp only [store, hk, if_true, hx, Bool.false_eq_true, if_false,
          Option.some.injEq] at h
        rw [← h, List.map_cons, List.nodup_cons, ← hk]
        exact hnodup
    · simp only [store, hk, if_false, Option.map_eq_some'] at h
      obtain ⟨r, hr, hes⟩ := h
      rw [← hes, List.map_cons, List.nodup_cons]
      refine ⟨fun hmem => ?_, ih r hr hnodup.2⟩
      rcases store_keys e xs r hr _ hmem with h1 | h1
      · exact hk h1
      · exact hnodup.1 h1

/-! ### Well-formed jars -/

/-- Well-formedness of an entry from checks that can be computed. -/
theorem Entry.wellFormed_of_checks (e : Entry) (h1 : ';' ∉ e.name) (h2 : '=' ∉ e.name)
    (h3 : ';' ∉ e.value) (h4 : e.text.head?.all (fun c => !isWsp c) = true) :
    e.WellFormed := by
  refine ⟨h1, h2, h3, fun c hc => ?_⟩
  rw [hc] at h4
  simpa using h4

/-- What `nameValue` yields can be held by the jar, whatever the string. -/
theorem nameValue_wellFormed (s name value : List Char)
    (h : nameValue s = some (name, value)) :
    ';' ∉ name ∧ '=' ∉ name ∧ ';' ∉ value ∧
      (∀ c, (if name = [] then value else name ++ '=' :: value).head? = some c →
        isWsp c = false) := by
  unfold nameValue at h
  simp only [] at h
  generalize hp : ((splitSemiAux s).1).takeWhile (fun c => !isTerminator c) = pair at h
  have hps : ';' ∉ pair := by
    rw [← hp]
    exact fun hm => splitSemiAux_fst_no_semi s ((List.takeWhile_sublist _).subset hm)
  by_cases heq : '=' ∈ pair
  · simp only [heq, if_true] at h
    split_ifs at h
    simp only [Option.some.injEq, Prod.mk.injEq] at h
    obtain ⟨hname, hvalue⟩ := h
    have hbefore : ∀ c, c ∈ beforeEq pair → c ∈ pair ∧ c ≠ '=' := by
      intro c hc
      unfold beforeEq at hc
      refine ⟨(List.takeWhile_sublist _).subset hc, ?_⟩
      simpa using List.mem_takeWhile_imp hc
    have hn1 : ';' ∉ name := by
      rw [← hname]
      exact fun hm => hps (hbefore _ ((trimWsp_sublist _).subset hm)).1
    have hn2 : '=' ∉ name := by
      rw [← hname]
      exact fun hm => (hbefore _ ((trimWsp_sublist _).subset hm)).2 rfl
    have hv1 : ';' ∉ value := by
      rw [← hvalue]
      intro hm
      have h1 : ';' ∈ afterEq pair := (trimWsp_sublist _).subset hm
      unfold afterEq at h1
      exact hps ((List.dropWhile_sublist _).subset ((List.drop_sublist _ _).subset h1))
    refine ⟨hn1, hn2, hv1, ?_⟩
    intro c hc
    by_cases hne : name = []
    · rw [if_pos hne, ← hvalue] at hc
      exact trimWsp_head _ c hc
    · rw [if_neg hne] at hc
      cases hcs : name with
      | nil => exact absurd hcs hne
      | cons a as =>
        rw [hcs] at hc
        simp only [List.cons_append, List.head?_cons, Option.some.injEq] at hc
        apply trimWsp_head (beforeEq pair) c
        rw [hname, hcs, ← hc]
        rfl
  · simp only [heq, if_false] at h
    split_ifs at h
    simp only [Option.some.injEq, Prod.mk.injEq] at h
    obtain ⟨hname, hvalue⟩ := h
    have hv1 : ';' ∉ value := by
      rw [← hvalue]
      exact fun hm => hps ((trimWsp_sublist _).subset hm)
    refine ⟨hname ▸ List.not_mem_nil _, hname ▸ List.not_mem_nil _, hv1, ?_⟩
    intro c hc
    rw [if_pos hname.symm, ← hvalue] at hc
    exact trimWsp_head _ c hc

theorem parseSetCookie_nameValue (s : List Char) (p : Parsed) (h : parseSetCookie s = some p) :
    nameValue s = some (p.name, p.value) := by
  unfold parseSetCookie at h
  cases hnv : nameValue s with
  | none => simp [hnv] at h
  | some nv =>
    obtain ⟨name, value⟩ := nv
    simp only [hnv] at h
    split_ifs at h
    simp only [Option.some.injEq] at h
    rw [← h]

/-- Assignments to `document.cookie` keep the jar well formed. -/
theorem Jar.assign_wellFormed (jar : Jar) (assigned : String) (h : jar.WellFormed) :
    (jar.assign assigned).WellFormed := by
  unfold Jar.assign
  cases hparse : parseSetCookie assigned.data with
  | none => exact h
  | some p =>
    simp only []
    cases hstore : store ⟨p.name, p.value, jar.host, true, p.path.getD jar.defaultPath, false,
        p.expiry⟩ jar.entries with
    | none => exact h
    | some es =>
      refine ⟨fun x hx => ?_, store_nodup _ _ _ hstore h.2⟩
      rcases store_mem_cases _ _ _ hstore h.2 x hx with hxe | ⟨hxj, _⟩
      · rw [hxe]
        exact nameValue_wellFormed _ _ _ (parseSetCookie_nameValue _ p hparse)
      · exact h.1 x hxj

/-- After `setCookie(n, v, days)`, for a name and a value the jar stores
unchanged, a jar that holds no other cookie reading as `n=` and an entry
that is live, `getCookie(n)` reads `v`. -/
theorem getCookie_after_setCookie (n v : String) (days now : Nat) (jar : Jar)
    (hjar : jar.WellFormed) (hfree : jar.freeFor n.data)
    (hn : n.data ≠ []) (hn1 : ';' ∉ n.data) (hn2 : '=' ∉ n.data)
    (hnw : edgeClean n.data = true) (hnc : n.data.any isControl = false)
    (hnr : hasReservedPrefix n.data = false)
    (hv1 : ';' ∉ v.data) (hvw : edgeClean v.data = true) (hvc : v.data.any isControl = false)
    (hsize : utf8Length n.data + utf8Length v.data ≤ 4096)
    (hlive : Entry.live now
      ⟨n.data, v.data, jar.host, true, "/".data, false, writtenExpiry days now⟩ = true) :
    getCookie n ((jar.after (setCookie n v days now).effects).read now) = v := by
  have hparse := parseSetCookie_assigned n v days now hn hn1 hn2 hnw hnc hnr hv1 hvw hvc hsize
  have hafter : jar.after (setCookie n v days now).effects =
      jar.assign (setCookieAssigned n v days now) := rfl
  have htext : ∀ x : Entry, x.name = n.data → x.text = (n.data ++ ['=']) ++ x.value := by
    intro x hx
    unfold Entry.text
    rw [hx, if_neg hn, List.append_assoc]
    rfl
  have hblock : ∀ x ∈ jar.entries,
      x.key = Entry.key ⟨n.data, v.data, jar.host, true, "/".data, false,
        writtenExpiry days now⟩ → x.httpOnly = false := by
    intro x hx hk
    have hname : x.name = n.data := congrArg Prod.fst hk
    exact (hfree x hx (htext x hname ▸ List.prefix_append _ _)).2.2.2.2
  obtain ⟨es, hes⟩ := store_isSome _ _ hblock
  have hassign : jar.assign (setCookieAssigned n v days now) =
      ⟨jar.host, jar.defaultPath, es⟩ := by
    unfold Jar.assign
    rw [hparse]
    simp only [Option.getD_some, hes]
  have hwf := Jar.assign_wellFormed jar (setCookieAssigned n v days now) hjar
  rw [hafter]
  rw [hassign] at hwf ⊢
  apply getCookie_read n v now _ hwf.1
  · refine ⟨_, store_mem _ _ _ hes, ?_, htext _ rfl⟩
    simp only [Entry.visible, hlive, Bool.not_false, Bool.and_self]
  · intro x hx hp
    rcases store_mem_cases _ _ _ hes hjar.2 x hx with hxe | ⟨hxj, hxk⟩
    · rw [hxe]
      exact htext _ rfl
    · obtain ⟨h1, h2, _, h4, _⟩ := hfree x hxj hp
      exact absurd (by simp only [Entry.key, h1, h2, h4]) hxk

/-- Renderings checked against known dates, the ends of the range of `Date`
included. -/
theorem toUTCString_samples :
    toUTCString (timeClip 0) = "Thu, 01 Jan 1970 00:00:00 GMT".data ∧
      toUTCString (timeClip 951782400000) = "Tue, 29 Feb 2000 00:00:00 GMT".data ∧
      toUTCString (timeClip 1700000000123) = "Tue, 14 Nov 2023 22:13:20 GMT".data ∧
      toUTCString (timeClip 8640000000000000) = "Sat, 13 Sep 275760 00:00:00 GMT".data ∧
      toUTCString (timeClip 8640000000000001) = "Invalid Date".data := by
  decide

/-- The date parser on renderings: a four-digit year parses to the time
value in whole seconds, a longer year and `Invalid Date` do not parse. -/
theorem parseDate_samples :
    parseDate (toUTCString (timeClip 86400000)) = some 86400000 ∧
      parseDate (toUTCString (timeClip 1700000000123)) = some 1700000000000 ∧
      parseDate (toUTCString (timeClip 8640000000000000)) = none ∧
      parseDate (toUTCString (timeClip 8640000000000001)) = none := by
  decide

/-- The jar on small runs: entries are joined by `; `, values are stored
trimmed, an entry rewritten with an expiry in the past is gone, a cookie
without name reads as its value, and longer paths are listed first. -/
theorem Jar.read_samples :
    Jar.read 5 (Jar.fresh.after (setCookie "a" "1" 1 0).effects) = "a=1" ∧
      Jar.read 5 ((Jar.fresh.after (setCookie "a" "1" 1 0).effects).after
        (setCookie "b" " 2 " 1 0).effects) = "a=1; b=2" ∧
      Jar.read 1500 ((Jar.fresh.after (setCookie "a" "1" 1 0).effects).after
        (setCookie "a" "3" 0 1500).effects) = "" ∧
      Jar.read 0 (Jar.fresh.assign "abc") = "abc" ∧
      Jar.read 0 ((Jar.fresh.assign "a=1; path=/").assign "a=2; Path=/x/y") = "a=2; a=1" ∧
      Jar.read 0 ((Jar.fresh.assign "a=1").assign "a=2; HttpOnly") = "a=1" := by
  decide

/-! ## The round trip of `setCookie` and `getCookie` -/

/-- C3, as written in the specification, fails: a name that begins or ends
with a space is never found again (the host stores it trimmed and
`getCookie` trims the segment, not the query); a value that begins with a
space comes back trimmed; with `days = 0` the entry is written already
expired, so the read finds nothing; a value with a line feed is cut there; a
name with a reserved prefix is refused; and in a jar that holds a cookie of
the same name on a longer path, or one hidden from scripts, the read is not
of the value written. -/
theorem setCookie_getCookie_round_trip_counterexample :
    getCookie " x" ((Jar.fresh.after (setCookie " x" "1" 1 0).effects).read 0) = "" ∧
      getCookie "x " ((Jar.fresh.after (setCookie "x " "1" 1 0).effects).read 0) = "" ∧
      getCookie "x" ((Jar.fresh.after (setCookie "x" " 1" 1 0).effects).read 0) = "1" ∧
      getCookie "x" ((Jar.fresh.after (setCookie "x" "1" 0 1500).effects).read 1500) = "" ∧
      getCookie "x" ((Jar.fresh.after (setCookie "x" "a\nb" 1 0).effects).read 0) = "a" ∧
      getCookie "__Secure-id"
        ((Jar.fresh.after (setCookie "__Secure-id" "1" 1 0).effects).read 0) = "" ∧
      getCookie "x" (((Jar.mk "localhost".data "/app".data
        [⟨"x".data, "old".data, "localhost".data, true, "/app".data, false, none⟩]).after
        (setCookie "x" "1" 1 0).effects).read 0) = "old" ∧
      getCookie "x" (((Jar.mk "localhost".data "/".data
        [⟨"x".data, "kept".data, "localhost".data, true, "/".data, true, none⟩]).after
        (setCookie "x" "1" 1 0).effects).read 0) = "" := by
  decide

/-- C3, amended. For a non-empty name `n` free of `;` and `=`, of control
characters and of a reserved prefix, that neither begins nor ends with white
space, a value `v` free of `;` and `=` and of control characters that
neither begins nor ends with white space, the two together of at most 4096
bytes, `days ≥ 1`, and any well-formed prior jar that holds no other cookie
reading as `n=`, `setCookie(n, v, days)` followed at once by `getCookie(n)`
returns `v`. -/
theorem setCookie_getCookie_round_trip (n v : String) (days now : Nat) (jar : Jar)
    (hjar : jar.WellFormed) (hfree : jar.freeFor n.data)
    (hn : n.data ≠ []) (hn1 : ';' ∉ n.data) (hn2 : '=' ∉ n.data)
    (hnw : edgeClean n.data = true) (hnc : n.data.any isControl = false)
    (hnr : hasReservedPrefix n.data = false)
    (hv1 : ';' ∉ v.data) (_hv2 : '=' ∉ v.data)
    (hvw : edgeClean v.data = true) (hvc : v.data.any isControl = false)
    (hsize : utf8Length n.data + utf8Length v.data ≤ 4096)
    (hdays : 1 ≤ days) :
    getCookie n ((jar.after (setCookie n v days now).effects).read now) = v :=
  getCookie_after_setCookie n v days now jar hjar hfree hn hn1 hn2 hnw hnc hnr hv1 hvw hvc hsize
    (writtenExpiry_live days now _ rfl hdays)

/-- C3 amended, on a jar that already holds a session cookie, another
entry, and a cookie of another name on a longer path: the new identifier
replaces the old one and is read back. -/
theorem setCookie_getCookie_round_trip_witness :
    getCookie "RUST_SESSION_ID"
      (((Jar.mk "localhost".data "/".data
          [⟨"theme".data, "dark".data, "localhost".data, true, "/".data, false, none⟩,
            ⟨"RUST_SESSION_ID".data, "old".data, "localhost".data, true, "/".data, false, none⟩,
            ⟨"lang".data, "it".data, "localhost".data, true, "/app".data, false, none⟩]).after
        (setCookie "RUST_SESSION_ID" "abc-123" 7 1700000000123).effects).read 1700000000123) =
      "abc-123" :=
  setCookie_getCookie_round_trip "RUST_SESSION_ID" "abc-123" 7 1700000000123
    (Jar.mk "localhost".data "/".data
      [⟨"theme".data, "dark".data, "localhost".data, true, "/".data, false, none⟩,
        ⟨"RUST_SESSION_ID".data, "old".data, "localhost".data, true, "/".data, false, none⟩,
        ⟨"lang".data, "it".data, "localhost".data, true, "/app".data, false, none⟩])
    (by
      refine ⟨?_, by decide⟩
      intro e he
      simp only [List.mem_cons, List.mem_singleton, List.not_mem_nil, or_false] at he
      rcases he with rfl | rfl | rfl <;>
        exact Entry.wellFormed_of_checks _ (by decide) (by decide) (by decide) (by decide))
    (by
      intro e he
      simp only [List.mem_cons, List.mem_singleton, List.not_mem_nil, or_false] at he
      rcases he with rfl | rfl | rfl
      · exact fun hp => absurd hp (by decide)
      · exact fun _ => ⟨rfl, rfl, rfl, rfl, rfl⟩
      · exact fun hp => absurd hp (by decide))
    (by decide) (by decide) (by decide) (by decide) (by decide) (by decide) (by decide)
    (by decide) (by decide) (by decide) (by decide) (by decide)


end Cookies
